import Mathlib

/-!
Verification of the keystore single-file key-value store (db.go).

The file is modelled as a `List Nat` of bytes.  Machine integers are Nat with
explicit `% 2^w` at every point where the Go code converts or may overflow
(uint8/uint32/uint64 casts and uint32 arithmetic).  The in-memory Go map is
modelled by an association list whose insert erases the previous binding.
`sort.Slice` appears only with comparators that are strict total orders on the
(distinct) elements being sorted, so an insertion sort denotes it; `sort.Search`
is modelled by Go's binary-search loop itself, with an explicit iteration bound
(`fuel`) that the halving loop never exhausts.
-/

set_option maxHeartbeats 1000000

namespace Keystore

/-- Big-endian bytes of a 32-bit value (binary.BigEndian, uint32). -/
def be32 (n : Nat) : List Nat :=
  [n / 16777216 % 256, n / 65536 % 256, n / 256 % 256, n % 256]

/-- Big-endian bytes of a 64-bit value (binary.BigEndian, uint64). -/
def be64 (n : Nat) : List Nat :=
  [n / 72057594037927936 % 256, n / 281474976710656 % 256, n / 1099511627776 % 256,
   n / 4294967296 % 256, n / 16777216 % 256, n / 65536 % 256, n / 256 % 256, n % 256]

/-- Big-endian decoding of a byte list (binary.BigEndian.Uint32 / Uint64). -/
def deBE (l : List Nat) : Nat := l.foldl (fun a b => a * 256 + b % 256) 0

/-- File model of os.File.WriteAt: overwrite at an offset, zero-padding any gap
past the current end of file, extending the file if the write runs past it. -/
def writeAt (f : List Nat) (off : Nat) (b : List Nat) : List Nat :=
  f.take off ++ List.replicate (off - f.length) 0 ++ b ++ f.drop (off + b.length)

/-- File model of os.File.ReadAt: read exactly n bytes; like ReadAt it fails
(with an error) when fewer than n bytes are available at the offset. -/
def readAt (f : List Nat) (off n : Nat) : Option (List Nat) :=
  if off + n ≤ f.length then some ((f.drop off).take n) else none

/-- The loop of Go sort.Search: i, j := 0, n; while i < j the probe h := (i+j)/2
moves j down to h when f h holds and i up to h+1 otherwise.  The gap j - i
shrinks every iteration, so fuel = initial gap bounds the iterations. -/
def searchGo (f : Nat → Bool) : Nat → Nat → Nat → Nat
  | 0, i, _ => i
  | fuel + 1, i, j =>
    if i < j then
      let h := (i + j) / 2
      if f h then searchGo f fuel i h else searchGo f fuel (h + 1) j
    else i

/-- sort.Search n f. -/
def sortSearch (n : Nat) (f : Nat → Bool) : Nat := searchGo f n 0 n

/-- The in-memory index record (db.go type index): offset of the record header
from the start of the file, key length, data length and trailing free space.
The Go fields are uint32/uint8/uint32/uint32. -/
structure Index where
  Offset : Nat
  KeySize : Nat
  DataSize : Nat
  EmptySize : Nat
deriving DecidableEq, Repr

instance : Inhabited Index := ⟨⟨0, 0, 0, 0⟩⟩

/-- binary.Size(index) = 4 + 1 + 4 + 4. -/
def indexSize : Nat := 13

/-- binary.Size(storedIndex) = 4 + 1 + 1 + 4 + 4. -/
def storedIndexSize : Nat := 14

/-- index.Size: KeySize + DataSize + EmptySize in uint32 arithmetic. -/
def Index.Size (i : Index) : Nat := (i.KeySize + i.DataSize + i.EmptySize) % 4294967296

/-- index.DataOffset: int64(Offset) + indexSize + int64(KeySize) + 1. -/
def Index.DataOffset (i : Index) : Nat := i.Offset + indexSize + i.KeySize + 1

/-- storedIndex.Size: the record footprint storedIndexSize + KeySize +
int64(DataSize + EmptySize), the inner sum being uint32 arithmetic. -/
def storedSize (keySize dataSize emptySize : Nat) : Nat :=
  storedIndexSize + keySize + (dataSize + emptySize) % 4294967296

/-- Keys are Go strings, i.e. raw byte sequences. -/
abbrev Key := List Nat

/-- Remove a binding from an association list (used to model map delete and
map overwrite). -/
def eraseKey {α : Type} (k : Key) : List (Key × α) → List (Key × α)
  | [] => []
  | (k2, v) :: rest => if k2 = k then eraseKey k rest else (k2, v) :: eraseKey k rest

/-- Go map lookup. -/
def lookupA {α : Type} (l : List (Key × α)) (k : Key) : Option α :=
  match l with
  | [] => none
  | (k2, v) :: rest => if k2 = k then some v else lookupA rest k

/-- Go map assignment m[k] = v. -/
def insertA {α : Type} (l : List (Key × α)) (k : Key) (v : α) : List (Key × α) :=
  (k, v) :: eraseKey k l

/-- The store state (db.go type DB): the backing file, the key index, the
free-slot list kept ordered by (size, offset), and the sequence counter. -/
structure DB where
  file : List Nat
  indexes : List (Key × Index)
  deleted : List Index
  counter : Nat
deriving DecidableEq, Repr

/-- The error kinds the store surfaces. -/
inductive DBError where
  | notFound : DBError
  | badFormat : String → DBError
  | ioError : String → DBError
deriving DecidableEq, Repr

deriving instance DecidableEq for Except

/-- db.get: look the key up, then ReadAt DataSize bytes at DataOffset. -/
def DB.get (db : DB) (key : Key) : Except DBError (List Nat) :=
  match lookupA db.indexes key with
  | none => .error .notFound
  | some idx =>
    match readAt db.file idx.DataOffset idx.DataSize with
    | none => .error (.ioError "read")
    | some data => .ok data

/-- The sort.Search of db.delete: the position in the (size, offset)-ordered
free list where idx belongs (first element strictly greater than idx). -/
def freePos (deleted : List Index) (idx : Index) : Nat :=
  sortSearch deleted.length (fun i =>
    let d := deleted.getD i default
    decide (idx.Size < d.Size ∨ (d.Size = idx.Size ∧ idx.Offset < d.Offset)))

/-- The sort.Search of db.put: the first free-list position whose slot size is
at least dataSize. -/
def fitFound (deleted : List Index) (dataSize : Nat) : Nat :=
  sortSearch deleted.length (fun i => dataSize ≤ (deleted.getD i default).Size)

/-- db.delete with the outcome of the 5-byte tombstone WriteAt made explicit:
`written` is the byte count the write reports (5 on success, fewer on an I/O
error, in which case only that prefix of the patch reached the file).  On
success the entry leaves the index and is inserted into the free list at the
position sort.Search finds for (size, offset), skipping a duplicate offset. -/
def DB.deleteCore (db : DB) (key : Key) (t : Nat) (written : Nat) : DB × Option DBError :=
  match lookupA db.indexes key with
  | none => (db, some .notFound)
  | some idx =>
    let file2 := writeAt db.file idx.Offset ((be32 t ++ [1]).take written)
    if written < 5 then ({ db with file := file2 }, some (.ioError "write"))
    else
      let indexes2 := eraseKey key db.indexes
      let dl := db.deleted.length
      let found := freePos db.deleted idx
      if found < dl ∧ (db.deleted.getD found default).Offset = idx.Offset then
        ({ db with file := file2, indexes := indexes2 }, none)
      else
        ({ db with
            file := file2, indexes := indexes2,
            deleted := db.deleted.take found ++ idx :: db.deleted.drop found }, none)

/-- db.delete with the write succeeding. -/
def DB.delete (db : DB) (key : Key) (t : Nat) : DB × Option DBError :=
  db.deleteCore key t 5

/-- db.put: tombstone any existing record for the key, best-fit search the free
list for size ≥ len(key)+len(value), then write header + key + value in one
WriteAt, either inside the found slot (keeping its tail as EmptySize) or at the
end of the file.  t1 is the clock at the inner delete, t2 at the write. -/
def DB.put (db : DB) (key value : List Nat) (t1 t2 : Nat) : DB :=
  let db1 := (db.delete key t1).1
  let dataSize := (key.length + value.length) % 4294967296
  let dl := db1.deleted.length
  let found := fitFound db1.deleted dataSize
  let slot := db1.deleted.getD found default
  let offset := if found < dl then slot.Offset else db1.file.length
  let empty := if found < dl then (slot.Size + 4294967296 - dataSize) % 4294967296 else 0
  let deleted2 :=
    if found < dl then db1.deleted.take found ++ db1.deleted.drop (found + 1)
    else db1.deleted
  let idx : Index :=
    ⟨offset % 4294967296, key.length % 256, value.length % 4294967296, empty⟩
  let buf := be32 t2 ++ [0, idx.KeySize] ++ be32 idx.DataSize ++ be32 idx.EmptySize
    ++ key ++ value
  { db1 with
      file := writeAt db1.file offset buf,
      indexes := insertA db1.indexes key idx,
      deleted := deleted2 }

/-- The body of db.put after its internal delete call: the best-fit search and
the single WriteAt, taken as a function of the post-delete state db1.  db.put
is definitionally putFrom of the delete result (see put_eq_putFrom below);
factoring it out lets the slot/append reasoning quantify over db1. -/
def putFrom (db1 : DB) (key value : List Nat) (t2 : Nat) : DB :=
  let dataSize := (key.length + value.length) % 4294967296
  let dl := db1.deleted.length
  let found := fitFound db1.deleted dataSize
  let slot := db1.deleted.getD found default
  let offset := if found < dl then slot.Offset else db1.file.length
  let empty := if found < dl then (slot.Size + 4294967296 - dataSize) % 4294967296 else 0
  let deleted2 :=
    if found < dl then db1.deleted.take found ++ db1.deleted.drop (found + 1)
    else db1.deleted
  let idx : Index :=
    ⟨offset % 4294967296, key.length % 256, value.length % 4294967296, empty⟩
  let buf := be32 t2 ++ [0, idx.KeySize] ++ be32 idx.DataSize ++ be32 idx.EmptySize
    ++ key ++ value
  { db1 with
      file := writeAt db1.file offset buf,
      indexes := insertA db1.indexes key idx,
      deleted := deleted2 }

/-- db.Count: uint32(len(indexes)). -/
def DB.Count (db : DB) : Nat := db.indexes.length % 4294967296

/-- db.NextSequence: increment the uint64 counter, write its 8 bytes at file
offset 4, return the new value. -/
def DB.NextSequence (db : DB) : Nat × DB :=
  let c := (db.counter + 1) % 18446744073709551616
  (c, { db with counter := c, file := writeAt db.file 4 (be64 c) })

/-- Strict byte-wise lexicographic comparison of Go strings (s1 < s2). -/
def lexLt : Key → Key → Bool
  | [], [] => false
  | [], _ :: _ => true
  | _ :: _, [] => false
  | a :: l1, b :: l2 => if a = b then lexLt l1 l2 else decide (a < b)

/-- strings.HasPrefix(s, p). -/
def hasPfx : Key → Key → Bool
  | _, [] => true
  | [], _ :: _ => false
  | a :: s, b :: p => a == b && hasPfx s p

/-- The sort.Slice comparator of db.Keys: first by length, then byte-wise
lexicographically; asc = false flips the answer. -/
def lessKeys (asc : Bool) (s1 s2 : Key) : Bool :=
  if s1.length = s2.length then lexLt s1 s2 == asc
  else decide (s1.length < s2.length) == asc

/-- Insert into a list sorted by the boolean comparator. -/
def insertSorted {α : Type} (less : α → α → Bool) (x : α) : List α → List α
  | [] => [x]
  | y :: ys => if less y x then y :: insertSorted less x ys else x :: y :: ys

/-- Insertion sort; denotes sort.Slice for comparators that are strict total
orders on the (distinct) elements sorted. -/
def sortByLess {α : Type} (less : α → α → Bool) : List α → List α
  | [] => []
  | x :: xs => insertSorted less x (sortByLess less xs)

/-- db.Keys: filter the key snapshot by prefix, sort with lessKeys, cut the
sorted list after the sort.Search position for last (plain string ≥ probe,
skipping an exact hit), then apply offset and limit. -/
def DB.Keys (db : DB) (pfx last : Key) (offset limit : Nat) (asc : Bool) : List Key :=
  let keys0 := (db.indexes.map Prod.fst).filter (fun k => pfx.isEmpty || hasPfx k pfx)
  let keys1 := sortByLess (lessKeys asc) keys0
  let keys2 :=
    if last.isEmpty then keys1
    else
      let found := sortSearch keys1.length (fun i => (!(lexLt (keys1.getD i []) last)) == asc)
      let found := if found < keys1.length ∧ keys1.getD found [] = last then found + 1 else found
      keys1.drop found
  let keys3 := if 0 < offset then keys2.drop (min offset keys2.length) else keys2
  if 0 < limit then keys3.take (min limit keys3.length) else keys3

/-- The 4-byte magic at offset 0. -/
def signature : Nat := 0xD3EFAA03

/-- The comparator open sorts the recovered free list with. -/
def lessFree (a b : Index) : Bool :=
  decide (a.Size < b.Size ∨ (a.Size = b.Size ∧ a.Offset < b.Offset))

/-- The recovery scan loop of open.  rem is the unread tail of the file, pos the
absolute offset of the record being parsed.  A clean end of file (no bytes, or
end of file at the key read) finishes the scan; a header truncated mid-struct is
a read error.  A short key read zero-fills the unread suffix of the key buffer
(Go ignores the count a single Read returns).  Each step advances by the record
footprint.  fuel bounds the iterations; every step consumes at least 14 bytes,
so rem.length + 1 iterations never run out. -/
def scanGo : Nat → List Nat → Nat → List (Key × Index) → List (Key × Nat) → List Index →
    Except DBError (List (Key × Index) × List Index)
  | 0, _, _, _, _, _ => .error (.ioError "read")
  | fuel + 1, rem, pos, indexes, times, deleted =>
    if rem.length = 0 then .ok (indexes, deleted)
    else if rem.length < 14 then .error (.ioError "read")
    else
      let time := deBE (rem.take 4)
      let del := rem.getD 4 0 ≠ 0
      let keySize := rem.getD 5 0
      let dataSize := deBE ((rem.drop 6).take 4)
      let emptySize := deBE ((rem.drop 10).take 4)
      let avail := rem.length - 14
      if 0 < keySize ∧ avail = 0 then .ok (indexes, deleted)
      else
        let key := ((rem.drop 14).take keySize) ++ List.replicate (keySize - avail) 0
        let idx : Index := ⟨pos % 4294967296, keySize, dataSize, emptySize⟩
        let acc :=
          if del then (indexes, times, deleted ++ [idx])
          else
            match lookupA indexes key with
            | some old =>
              if (lookupA times key).getD 0 < time then
                (insertA indexes key idx, insertA times key time, deleted ++ [old])
              else
                (indexes, times, deleted ++ [idx])
            | none => (insertA indexes key idx, insertA times key time, deleted)
        let size := storedSize keySize dataSize emptySize
        scanGo fuel (rem.drop size) (pos + size) acc.1 acc.2.1 acc.2.2

/-- open: create the 12-byte header in an empty file; otherwise check the magic
(BadFormat carries the path), load the counter, scan the records from offset 12
rebuilding index and free list, and sort the free list by (size, offset). -/
def openDB (path : String) (file : List Nat) : Except DBError DB :=
  if file.length = 0 then
    .ok ⟨be32 signature ++ be64 0, [], [], 0⟩
  else if file.length < 12 then .error (.ioError "read")
  else if deBE (file.take 4) ≠ signature then .error (.badFormat path)
  else
    let counter := deBE ((file.drop 4).take 8)
    match scanGo (file.length + 1) (file.drop 12) 12 [] [] [] with
    | .error e => .error e
    | .ok (indexes, deleted) => .ok ⟨file, indexes, sortByLess lessFree deleted, counter⟩

/-- The store open returns for a fresh (empty) file. -/
def emptyDB : DB := ⟨be32 signature ++ be64 0, [], [], 0⟩

/-- One mutation issued against a store: a put (with the two clock readings)
or a delete (with its clock reading). -/
inductive Op where
  | put : Key → List Nat → Nat → Nat → Op
  | del : Key → Nat → Op
deriving DecidableEq, Repr

/-- Apply one operation; a delete of an absent key (NotFound) leaves the store
unchanged, as in Go. -/
def applyOp (db : DB) : Op → DB
  | .put k v t1 t2 => db.put k v t1 t2
  | .del k t => (db.delete k t).1

def applyOps (db : DB) : List Op → DB
  | [] => db
  | op :: ops => applyOps (applyOp db op) ops

/-- A put is valid when the key has 1 to 255 bytes (the uint8 key_size range the
spec admits) and key plus value fit a uint32. -/
def ValidOp : Op → Prop
  | .put k v _ _ => 1 ≤ k.length ∧ k.length ≤ 255 ∧ k.length + v.length < 4294967296
  | .del _ _ => True

instance : DecidablePred ValidOp := fun op =>
  match op with
  | .put _ _ _ _ => inferInstanceAs (Decidable (_ ∧ _ ∧ _))
  | .del _ _ => inferInstanceAs (Decidable True)

def ValidOps (ops : List Op) : Prop := ∀ op ∈ ops, ValidOp op

/-! ### Byte-level encoding lemmas -/

@[simp] theorem length_be32 (n : Nat) : (be32 n).length = 4 := rfl

@[simp] theorem length_be64 (n : Nat) : (be64 n).length = 8 := rfl

theorem deBE_be32 (n : Nat) : deBE (be32 n) = n % 4294967296 := by
  simp only [deBE, be32, List.foldl]
  omega

set_option maxHeartbeats 4000000 in
theorem deBE_be64 (n : Nat) : deBE (be64 n) = n % 18446744073709551616 := by
  simp only [deBE, be64, List.foldl]
  omega

theorem be32_mod (n : Nat) : be32 (n % 4294967296) = be32 n := by
  simp only [be32, List.cons.injEq, and_true]
  omega

/-! ### File model lemmas -/

theorem length_writeAt (f : List Nat) (off : Nat) (b : List Nat) :
    (writeAt f off b).length = max f.length (off + b.length) := by
  simp only [writeAt, List.length_append, List.length_take, List.length_replicate,
    List.length_drop]
  omega

theorem writeAt_of_le (f : List Nat) {off : Nat} (b : List Nat) (h : off ≤ f.length) :
    writeAt f off b = f.take off ++ b ++ f.drop (off + b.length) := by
  simp [writeAt, Nat.sub_eq_zero_of_le h]

theorem drop_writeAt_self (f : List Nat) (off : Nat) (b : List Nat) :
    (writeAt f off b).drop off = b ++ f.drop (off + b.length) := by
  have e : writeAt f off b
      = (f.take off ++ List.replicate (off - f.length) 0) ++ (b ++ f.drop (off + b.length)) := by
    simp [writeAt]
  have hlen : (f.take off ++ List.replicate (off - f.length) 0).length = off := by
    simp only [List.length_append, List.length_take, List.length_replicate]
    omega
  rw [e, List.drop_append_eq_append_drop, hlen, Nat.sub_self, List.drop_zero,
    List.drop_eq_nil_of_le (le_of_eq hlen), List.nil_append]

theorem readAt_writeAt_inside (f : List Nat) (off : Nat) (b : List Nat) {a n : Nat}
    (h : a + n ≤ b.length) :
    readAt (writeAt f off b) (off + a) n = some ((b.drop a).take n) := by
  have hb : (writeAt f off b).length = max f.length (off + b.length) := length_writeAt f off b
  have hle : off + a + n ≤ (writeAt f off b).length := by omega
  have hdrop : (writeAt f off b).drop (off + a) = (b ++ f.drop (off + b.length)).drop a := by
    rw [← List.drop_drop, drop_writeAt_self]
  rw [readAt, if_pos hle, hdrop, List.drop_append_eq_append_drop,
    List.take_append_eq_append_take]
  have h1 : (List.drop a b).length = b.length - a := List.length_drop a b
  have h2 : a - b.length = 0 := by omega
  have h3 : n - (List.drop a b).length = 0 := by omega
  simp [h2, h3]
  omega

theorem writeAt_at_length (f b : List Nat) : writeAt f f.length b = f ++ b := by
  simp [writeAt]

theorem take_writeAt_of_le (f : List Nat) {off p : Nat} (b : List Nat) (h : p ≤ off)
    (hf : p ≤ f.length) : (writeAt f off b).take p = f.take p := by
  simp only [writeAt, List.append_assoc]
  rw [List.take_append_eq_append_take]
  have h1 : p - (f.take off).length = 0 := by
    simp only [List.length_take]
    omega
  rw [h1]
  simp [List.take_take, Nat.min_eq_left h]

theorem drop_writeAt_of_ge (f : List Nat) {off p : Nat} (b : List Nat)
    (h : off + b.length ≤ p) (hf : off ≤ f.length) :
    (writeAt f off b).drop p = f.drop p := by
  rw [writeAt_of_le f b hf]
  rw [List.drop_append_eq_append_drop, List.drop_append_eq_append_drop]
  have h1 : (f.take off).length = off := by
    simp only [List.length_take]
    omega
  have h3 : (f.take off).drop p = [] := by
    apply List.drop_eq_nil_of_le
    simp only [List.length_take]
    omega
  have h4 : b.drop (p - (f.take off).length) = [] := by
    apply List.drop_eq_nil_of_le
    omega
  rw [h3, h4, List.drop_drop, List.nil_append, List.nil_append]
  congr 1
  simp only [List.length_append, h1]
  omega

/-! ### sort.Search lemmas -/

theorem searchGo_le_right (f : Nat → Bool) (fuel i j : Nat) (h : i ≤ j) :
    searchGo f fuel i j ≤ j := by
  induction fuel generalizing i j with
  | zero => simpa [searchGo]
  | succ fuel ih =>
    simp only [searchGo]
    split
    · split
      · exact le_trans (ih i ((i + _) / 2) (by omega)) (by omega)
      · exact ih _ j (by omega)
    · exact h

theorem searchGo_ge_left (f : Nat → Bool) (fuel i j : Nat) :
    i ≤ searchGo f fuel i j := by
  induction fuel generalizing i j with
  | zero => simp [searchGo]
  | succ fuel ih =>
    simp only [searchGo]
    split
    · split
      · exact ih i _
      · exact le_trans (by omega) (ih _ j)
    · exact le_refl i

theorem searchGo_eq_or_true (f : Nat → Bool) (fuel i j : Nat) (h : j - i ≤ fuel)
    (hij : i ≤ j) : searchGo f fuel i j = j ∨ f (searchGo f fuel i j) = true := by
  induction fuel generalizing i j with
  | zero =>
    left
    simp only [searchGo]
    omega
  | succ fuel ih =>
    simp only [searchGo]
    split
    · rename_i hlt
      split
      · rename_i hfh
        rcases ih i ((i + j) / 2) (by omega) (by omega) with h1 | h1
        · right
          rw [h1]
          exact hfh
        · right
          exact h1
      · exact ih _ j (by omega) (by omega)
    · left
      omega

theorem searchGo_false_below (f : Nat → Bool) (n : Nat)
    (hmono : ∀ a b, a ≤ b → b < n → f a = true → f b = true)
    (fuel i j : Nat) (hj : j ≤ n) (hlow : ∀ k, k < i → f k = false) :
    ∀ k, k < searchGo f fuel i j → f k = false := by
  induction fuel generalizing i j with
  | zero => simpa [searchGo] using hlow
  | succ fuel ih =>
    simp only [searchGo]
    split
    · rename_i hij
      split
      · rename_i hfh
        exact ih i _ (by omega) hlow
      · rename_i hfh
        apply ih _ j hj
        intro k hk
        by_cases hki : k < i
        · exact hlow k hki
        · rcases Bool.eq_false_or_eq_true (f k) with hfk | hfk
          · have : f ((i + j) / 2) = true := hmono k _ (by omega) (by omega) hfk
            simp_all
          · exact hfk
    · exact hlow

/-- sort.Search on a monotone predicate: every index below the result fails the
predicate, and the result satisfies it unless it is n. -/
theorem sortSearch_spec (n : Nat) (f : Nat → Bool)
    (hmono : ∀ a b, a ≤ b → b < n → f a = true → f b = true) :
    (∀ k, k < sortSearch n f → f k = false) ∧
      (sortSearch n f < n → f (sortSearch n f) = true) := by
  constructor
  · exact searchGo_false_below f n hmono n 0 n (le_refl n) (by omega)
  · intro hlt
    rcases searchGo_eq_or_true f n 0 n (by omega) (by omega) with h | h
    · rw [sortSearch] at hlt
      omega
    · exact h

theorem sortSearch_le (n : Nat) (f : Nat → Bool) : sortSearch n f ≤ n :=
  searchGo_le_right f n 0 n (Nat.zero_le n)

theorem sortSearch_true_of_lt (n : Nat) (f : Nat → Bool)
    (h : sortSearch n f < n) : f (sortSearch n f) = true := by
  rcases searchGo_eq_or_true f n 0 n (by omega) (by omega) with h1 | h1
  · rw [sortSearch] at h
    omega
  · exact h1

/-! ### Association list lemmas -/

theorem lookupA_eraseKey_self {α : Type} (l : List (Key × α)) (k : Key) :
    lookupA (eraseKey k l) k = none := by
  induction l with
  | nil => rfl
  | cons kv rest ih =>
    obtain ⟨k2, v⟩ := kv
    simp only [eraseKey]
    split
    · exact ih
    · rename_i hne
      simp only [lookupA, if_neg hne]
      exact ih

theorem lookupA_eraseKey_ne {α : Type} (l : List (Key × α)) {k k2 : Key} (h : k2 ≠ k) :
    lookupA (eraseKey k l) k2 = lookupA l k2 := by
  induction l with
  | nil => rfl
  | cons kv rest ih =>
    obtain ⟨k3, v⟩ := kv
    simp only [eraseKey, lookupA]
    split
    · rename_i he
      rw [ih]
      have : ¬ k3 = k2 := by
        rw [he]
        exact fun hh => h hh.symm
      simp only [lookupA, if_neg this]
    · simp only [lookupA]
      split
      · rfl
      · exact ih

@[simp] theorem lookupA_insertA_self {α : Type} (l : List (Key × α)) (k : Key) (v : α) :
    lookupA (insertA l k v) k = some v := by
  simp [insertA, lookupA]

theorem lookupA_insertA_ne {α : Type} (l : List (Key × α)) {k k2 : Key} (v : α) (h : k2 ≠ k) :
    lookupA (insertA l k v) k2 = lookupA l k2 := by
  simp only [insertA, lookupA, if_neg (fun hh : k = k2 => h hh.symm)]
  exact lookupA_eraseKey_ne l h

/-! ### Insertion sort lemmas -/

theorem mem_insertSorted {α : Type} (less : α → α → Bool) (x y : α) (l : List α) :
    y ∈ insertSorted less x l ↔ y = x ∨ y ∈ l := by
  induction l with
  | nil => simp [insertSorted]
  | cons z zs ih =>
    simp only [insertSorted]
    split
    · simp only [List.mem_cons, ih]
      tauto
    · simp only [List.mem_cons]

theorem perm_insertSorted {α : Type} (less : α → α → Bool) (x : α) (l : List α) :
    (insertSorted less x l).Perm (x :: l) := by
  induction l with
  | nil => simp [insertSorted]
  | cons z zs ih =>
    simp only [insertSorted]
    split
    · exact ((ih.cons z).trans (List.Perm.swap x z zs))
    · exact List.Perm.refl _

theorem perm_sortByLess {α : Type} (less : α → α → Bool) (l : List α) :
    (sortByLess less l).Perm l := by
  induction l with
  | nil => simp [sortByLess]
  | cons x xs ih =>
    exact (perm_insertSorted less x (sortByLess less xs)).trans (ih.cons x)

theorem pairwise_insertSorted {α : Type} (less : α → α → Bool) (R : α → α → Prop)
    (hf : ∀ a b, less a b = false → R b a) (ht : ∀ a b, less a b = true → R a b)
    (htrans : ∀ a b c, R a b → R b c → R a c)
    (x : α) (l : List α) (hl : l.Pairwise R) :
    (insertSorted less x l).Pairwise R := by
  induction l with
  | nil => simp [insertSorted]
  | cons y ys ih =>
    rcases List.pairwise_cons.mp hl with ⟨hy, hys⟩
    simp only [insertSorted]
    split
    · rename_i hless
      refine List.pairwise_cons.mpr ⟨?_, ih hys⟩
      intro z hz
      rcases (mem_insertSorted less x z ys).mp hz with hzx | hzys
      · rw [hzx]
        exact ht y x hless
      · exact hy z hzys
    · rename_i hless
      refine List.pairwise_cons.mpr ⟨?_, hl⟩
      intro z hz
      rcases List.mem_cons.mp hz with hzy | hzys
      · rw [hzy]
        exact hf y x (Bool.eq_false_iff.mpr hless)
      · exact htrans x y z (hf y x (Bool.eq_false_iff.mpr hless)) (hy z hzys)

theorem pairwise_sortByLess {α : Type} (less : α → α → Bool) (R : α → α → Prop)
    (hf : ∀ a b, less a b = false → R b a) (ht : ∀ a b, less a b = true → R a b)
    (htrans : ∀ a b c, R a b → R b c → R a c) (l : List α) :
    (sortByLess less l).Pairwise R := by
  induction l with
  | nil => simp [sortByLess]
  | cons x xs ih => exact pairwise_insertSorted less R hf ht htrans x _ ih

/-! ### Lexicographic order lemmas -/

theorem lexLt_irrefl (a : Key) : lexLt a a = false := by
  induction a with
  | nil => rfl
  | cons x xs ih => simp [lexLt, ih]

theorem lexLt_trichotomy {a b : Key} (h : lexLt a b = false) : lexLt b a = true ∨ a = b := by
  induction a generalizing b with
  | nil =>
    cases b with
    | nil => right; rfl
    | cons y ys => simp [lexLt] at h
  | cons x xs ih =>
    cases b with
    | nil => left; rfl
    | cons y ys =>
      simp only [lexLt] at h ⊢
      by_cases hxy : x = y
      · subst hxy
        simp only [if_pos rfl] at h ⊢
        rcases ih h with h1 | h1
        · left; exact h1
        · right; rw [h1]
      · rw [if_neg hxy] at h
        rw [if_neg (fun hh => hxy hh.symm)]
        left
        simp only [decide_eq_false_iff_not] at h
        simp only [decide_eq_true_eq]
        omega

theorem lexLt_trans {a b c : Key} (h1 : lexLt a b = true) (h2 : lexLt b c = true) :
    lexLt a c = true := by
  induction a generalizing b c with
  | nil =>
    cases c with
    | nil =>
      cases b with
      | nil => exact h1
      | cons y ys => simp [lexLt] at h2
    | cons z zs => rfl
  | cons x xs ih =>
    cases b with
    | nil => simp [lexLt] at h1
    | cons y ys =>
      cases c with
      | nil => simp [lexLt] at h2
      | cons z zs =>
        simp only [lexLt] at h1 h2 ⊢
        by_cases hxy : x = y <;> by_cases hyz : y = z
        · subst hxy; subst hyz
          rw [if_pos rfl] at h1 h2 ⊢
          exact ih h1 h2
        · subst hxy
          rw [if_pos rfl] at h1
          rw [if_neg hyz] at h2 ⊢
          exact h2
        · subst hyz
          rw [if_pos rfl] at h2
          rw [if_neg hxy] at h1 ⊢
          exact h1
        · rw [if_neg hxy] at h1
          rw [if_neg hyz] at h2
          simp only [decide_eq_true_eq] at h1 h2
          have hxz : x ≠ z := by omega
          rw [if_neg hxz]
          simp only [decide_eq_true_eq]
          omega

/-- The ordering the specification describes for keys: primarily by length,
secondarily byte-wise lexicographic (non-strict form). -/
def lenLexLe (a b : Key) : Prop :=
  a.length < b.length ∨ (a.length = b.length ∧ (lexLt a b = true ∨ a = b))

/-- The claimed ordering of db.Keys output: lenLexLe when ascending, its
reverse when descending. -/
def specLe (asc : Bool) (a b : Key) : Prop :=
  if asc then lenLexLe a b else lenLexLe b a

theorem lenLexLe_trans {a b c : Key} (h1 : lenLexLe a b) (h2 : lenLexLe b c) :
    lenLexLe a c := by
  rcases h1 with h1 | ⟨h1, h1b⟩
  · rcases h2 with h2 | ⟨h2, _⟩
    · exact Or.inl (by omega)
    · exact Or.inl (by omega)
  · rcases h2 with h2 | ⟨h2, h2b⟩
    · exact Or.inl (by omega)
    · refine Or.inr ⟨by omega, ?_⟩
      rcases h1b with h1b | h1b
      · rcases h2b with h2b | h2b
        · exact Or.inl (lexLt_trans h1b h2b)
        · subst h2b
          exact Or.inl h1b
      · subst h1b
        exact h2b

theorem specLe_true_eq (a b : Key) : specLe true a b = lenLexLe a b := rfl

theorem specLe_false_eq (a b : Key) : specLe false a b = lenLexLe b a := rfl

theorem specLe_trans (asc : Bool) (a b c : Key) (h1 : specLe asc a b) (h2 : specLe asc b c) :
    specLe asc a c := by
  cases asc with
  | true =>
    rw [specLe_true_eq] at *
    exact lenLexLe_trans h1 h2
  | false =>
    rw [specLe_false_eq] at *
    exact lenLexLe_trans h2 h1

theorem lessKeys_true_specLe {asc : Bool} {a b : Key} (h : lessKeys asc a b = true) :
    specLe asc a b := by
  rw [lessKeys] at h
  cases asc with
  | true =>
    rw [specLe_true_eq, lenLexLe]
    split at h
    · rename_i hlen
      cases hh : lexLt a b
      · rw [hh] at h
        simp at h
      · exact Or.inr ⟨hlen, Or.inl rfl⟩
    · rename_i hlen
      cases hh : decide (a.length < b.length)
      · rw [hh] at h
        simp at h
      · exact Or.inl (by simpa using hh)
  | false =>
    rw [specLe_false_eq, lenLexLe]
    split at h
    · rename_i hlen
      cases hh : lexLt a b
      · rcases lexLt_trichotomy hh with h1 | h1
        · exact Or.inr ⟨hlen.symm, Or.inl h1⟩
        · exact Or.inr ⟨hlen.symm, Or.inr h1.symm⟩
      · rw [hh] at h
        simp at h
    · rename_i hlen
      cases hh : decide (a.length < b.length)
      · have : ¬ a.length < b.length := by simpa using hh
        exact Or.inl (by omega)
      · rw [hh] at h
        simp at h

theorem lessKeys_false_specLe {asc : Bool} {a b : Key} (h : lessKeys asc a b = false) :
    specLe asc b a := by
  rw [lessKeys] at h
  cases asc with
  | true =>
    rw [specLe_true_eq, lenLexLe]
    split at h
    · rename_i hlen
      cases hh : lexLt a b
      · rcases lexLt_trichotomy hh with h1 | h1
        · exact Or.inr ⟨hlen.symm, Or.inl h1⟩
        · exact Or.inr ⟨hlen.symm, Or.inr h1.symm⟩
      · rw [hh] at h
        simp at h
    · rename_i hlen
      cases hh : decide (a.length < b.length)
      · have : ¬ a.length < b.length := by simpa using hh
        exact Or.inl (by omega)
      · rw [hh] at h
        simp at h
  | false =>
    rw [specLe_false_eq, lenLexLe]
    split at h
    · rename_i hlen
      cases hh : lexLt a b
      · rw [hh] at h
        simp at h
      · exact Or.inr ⟨hlen, Or.inl rfl⟩
    · rename_i hlen
      cases hh : decide (a.length < b.length)
      · rw [hh] at h
        simp at h
      · exact Or.inl (by simpa using hh)

theorem keys_all_unfold (db : DB) (asc : Bool) :
    db.Keys [] [] 0 0 asc = sortByLess (lessKeys asc) (db.indexes.map Prod.fst) := by
  simp [DB.Keys, List.filter_true]

/-- C4.  keys("", "", 0, 0, asc) returns exactly the stored keys (a permutation
of the key snapshot) ordered primarily by key length and secondarily by
lexicographic byte comparison, both ascending when asc and both reversed when
not asc (the relation specLe asc). -/
theorem keys_sorted_by_length_then_lex (db : DB) (asc : Bool) :
    (db.Keys [] [] 0 0 asc).Perm (db.indexes.map Prod.fst) ∧
      (db.Keys [] [] 0 0 asc).Pairwise (specLe asc) := by
  rw [keys_all_unfold]
  refine ⟨perm_sortByLess _ _, ?_⟩
  exact pairwise_sortByLess (lessKeys asc) (specLe asc)
    (fun a b h => lessKeys_false_specLe h)
    (fun a b h => lessKeys_true_specLe h)
    (specLe_trans asc) _

/-! ### Lemmas about delete and put used for the round-trip claims -/

theorem lookupA_some_mem {α : Type} {l : List (Key × α)} {k : Key} {v : α}
    (h : lookupA l k = some v) : (k, v) ∈ l := by
  induction l with
  | nil => simp [lookupA] at h
  | cons kv rest ih =>
    obtain ⟨k2, v2⟩ := kv
    simp only [lookupA] at h
    split at h
    · rename_i he
      obtain rfl := he
      obtain rfl : v2 = v := by injection h
      exact List.mem_cons_self _ _
    · exact List.mem_cons_of_mem _ (ih h)

theorem mem_eraseKey_subset {α : Type} (kv : Key × α) (k : Key) (l : List (Key × α))
    (h : kv ∈ eraseKey k l) : kv ∈ l := by
  induction l with
  | nil => simp [eraseKey] at h
  | cons kv2 rest ih =>
    obtain ⟨k2, v2⟩ := kv2
    simp only [eraseKey] at h
    split at h
    · exact List.mem_cons_of_mem _ (ih h)
    · rcases List.mem_cons.mp h with h1 | h1
      · exact h1 ▸ List.mem_cons_self _ _
      · exact List.mem_cons_of_mem _ (ih h1)

theorem getD_mem {α : Type} [Inhabited α] {l : List α} {n : Nat} (h : n < l.length) :
    l.getD n default ∈ l := by
  rw [List.getD_eq_getElem l default h]
  exact List.getElem_mem h

/-- The state delete leaves behind: the file never shrinks, and with every index
entry's header inside the file the length is unchanged. -/
theorem delete_file_length (db : DB) (key : Key) (t : Nat)
    (hidx : ∀ kv ∈ db.indexes, kv.2.Offset + 14 ≤ db.file.length) :
    (db.delete key t).1.file.length = db.file.length := by
  rw [DB.delete, DB.deleteCore]
  cases hl : lookupA db.indexes key with
  | none => rfl
  | some idx =>
    have hmem := lookupA_some_mem hl
    have hoff : idx.Offset + 14 ≤ db.file.length := hidx (key, idx) hmem
    have hbuf : ((be32 t ++ [1]).take 5).length = 5 := rfl
    have hhm : (writeAt db.file idx.Offset ((be32 t ++ [1]).take 5)).length
        = db.file.length := by
      rw [length_writeAt, hbuf]
      omega
    simp only
    split
    · omega
    · split <;> simpa using hhm

theorem delete_indexes_subset (db : DB) (key : Key) (t : Nat) :
    ∀ kv ∈ (db.delete key t).1.indexes, kv ∈ db.indexes := by
  rw [DB.delete, DB.deleteCore]
  cases hl : lookupA db.indexes key with
  | none => exact fun kv h => h
  | some idx =>
    simp only
    split
    · omega
    · split
      · intro kv h
        simp only at h
        exact mem_eraseKey_subset kv key db.indexes h
      · intro kv h
        simp only at h
        exact mem_eraseKey_subset kv key db.indexes h

theorem delete_deleted_subset (db : DB) (key : Key) (t : Nat) :
    ∀ e ∈ (db.delete key t).1.deleted,
      e ∈ db.deleted ∨ ∃ k2, lookupA db.indexes k2 = some e := by
  rw [DB.delete, DB.deleteCore]
  cases hl : lookupA db.indexes key with
  | none => exact fun e h => Or.inl h
  | some idx =>
    simp only
    split
    · omega
    · split
      · exact fun e h => Or.inl h
      · intro e h
        simp only at h
        rcases List.mem_append.mp h with h1 | h1
        · exact Or.inl (List.mem_of_mem_take h1)
        · rcases List.mem_cons.mp h1 with h2 | h2
          · exact Or.inr ⟨key, h2 ▸ hl⟩
          · exact Or.inl (List.mem_of_mem_drop h2)

theorem buf_split (t2 ks ds es : Nat) (key value : List Nat) :
    be32 t2 ++ [0, ks] ++ be32 ds ++ be32 es ++ key ++ value
      = (be32 t2 ++ [0, ks] ++ be32 ds ++ be32 es) ++ (key ++ value) := by
  simp [List.append_assoc]

theorem buf_hdr_length (t2 ks ds es : Nat) :
    (be32 t2 ++ [0, ks] ++ be32 ds ++ be32 es).length = 14 := by
  simp

theorem buf_value_segment (t2 ks ds es : Nat) (key value : List Nat) :
    ((be32 t2 ++ [0, ks] ++ be32 ds ++ be32 es ++ key ++ value).drop
        (14 + key.length)).take value.length = value := by
  rw [buf_split]
  have h14 : (14 : Nat) + key.length
      = (be32 t2 ++ [0, ks] ++ be32 ds ++ be32 es).length + key.length := by
    rw [buf_hdr_length]
  rw [h14, List.drop_append, List.drop_left, List.take_length]

theorem buf_total_length (t2 ks ds es : Nat) (key value : List Nat) :
    (be32 t2 ++ [0, ks] ++ be32 ds ++ be32 es ++ key ++ value).length
      = 14 + key.length + value.length := by
  simp
  omega

/-- C1.  For a key of 1 to 255 bytes and a value of at most 100000 bytes
(including the empty value), a get immediately after a put returns exactly the
value that was put.  The store-state hypotheses say the file is below the 4 GiB
uint32 offset horizon and the in-memory entries point inside the file. -/
theorem put_get_roundtrip (db : DB) (key value : List Nat) (t1 t2 : Nat)
    (hk1 : 1 ≤ key.length) (hk2 : key.length ≤ 255) (hv : value.length ≤ 100000)
    (hlen : db.file.length < 4294967296)
    (hdel : ∀ e ∈ db.deleted, e.Offset < 4294967296)
    (hidx : ∀ kv ∈ db.indexes, kv.2.Offset + 14 ≤ db.file.length) :
    (db.put key value t1 t2).get key = .ok value := by
  have hlen1 : (db.delete key t1).1.file.length = db.file.length :=
    delete_file_length db key t1 hidx
  have hdel1 : ∀ e ∈ (db.delete key t1).1.deleted, e.Offset < 4294967296 := by
    intro e he
    rcases delete_deleted_subset db key t1 e he with h | ⟨k2, h⟩
    · exact hdel e h
    · have := hidx (k2, e) (lookupA_some_mem h)
      simp only at this
      omega
  simp only [DB.put]
  set db1 := (db.delete key t1).1 with hdb1
  set dataSize := (key.length + value.length) % 4294967296 with hds
  set dl := db1.deleted.length with hdl
  set found := fitFound db1.deleted dataSize with hfound
  set slot := db1.deleted.getD found default with hslot
  set offset := if found < dl then slot.Offset else db1.file.length with hoffdef
  set empty := if found < dl then (slot.Size + 4294967296 - dataSize) % 4294967296 else 0
    with hempty
  have hoff32 : offset < 4294967296 := by
    rw [hoffdef]
    split
    · rename_i hfd
      exact hdel1 slot (hslot ▸ getD_mem hfd)
    · omega
  have hK : key.length % 256 = key.length := Nat.mod_eq_of_lt (by omega)
  have hV : value.length % 4294967296 = value.length := Nat.mod_eq_of_lt (by omega)
  have hO : offset % 4294967296 = offset := Nat.mod_eq_of_lt hoff32
  simp only [DB.get, lookupA_insertA_self]
  have hDO : (Index.DataOffset ⟨offset % 4294967296, key.length % 256,
      value.length % 4294967296, empty⟩) = offset + (14 + key.length) := by
    simp only [Index.DataOffset, indexSize, hK, hO]
    omega
  rw [hDO]
  have hread : readAt
      (writeAt db1.file offset
        (be32 t2 ++ [0, key.length % 256] ++ be32 (value.length % 4294967296)
          ++ be32 empty ++ key ++ value))
      (offset + (14 + key.length)) (value.length % 4294967296) = some value := by
    rw [hV]
    rw [readAt_writeAt_inside db1.file offset _
      (by rw [buf_total_length])]
    rw [buf_value_segment]
  rw [hread]

/-- Witness for C1 at a concrete store: a 1-byte key with the empty value
round-trips as the empty byte sequence. -/
theorem put_get_roundtrip_witness :
    (emptyDB.put [7] [] 0 0).get [7] = .ok [] :=
  put_get_roundtrip emptyDB [7] [] 0 0 (by decide) (by decide) (by decide)
    (by decide) (by intro e he; simp [emptyDB] at he) (by intro kv h; simp [emptyDB] at h)

/-! ### Concrete scenarios -/

/-- The store holding keys "aa" (bytes 97 97) and "b" (byte 98). -/
def c3db : DB := applyOps emptyDB [.put [97, 97] [] 0 0, .put [98] [] 0 0]

/-- C3 (evidence for the code bug).  The sorted key list of the store with keys
"aa" and "b" is ["b", "aa"] (length-first order), which contains last = "aa" at
index 1, so the claimed cursor semantics require keys("", "aa", 0, 0, true) to
be the suffix after it, [].  The code instead binary-searches the length-sorted
list with the plain lexicographic predicate, lands at position 0, and returns
the whole list, "aa" itself included. -/
theorem keys_cursor_plain_lex_bug :
    c3db.Keys [] [] 0 0 true = [[98], [97, 97]] ∧
      c3db.Keys [] [97, 97] 0 0 true = [[98], [97, 97]] := by decide

/-- Scenario S1: empty store, put("id0","test"), delete("id0"). -/
def s1db : DB := applyOps emptyDB
  [.put [105, 100, 48] [116, 101, 115, 116] 0 0, .del [105, 100, 48] 0]

/-- C7 counterexample.  After put("id0","test") and delete("id0") the file is
33 bytes long: 12 header bytes plus one tombstoned record of footprint
14 + 3 + 4 + 0 = 21.  The claimed total 12 + 19 = 31 does not match. -/
theorem s1_file_length_counterexample :
    s1db.file.length = 33 ∧ (12 + 19 : Nat) ≠ 33 := by decide

/-- C7 amended.  Empty store, put("id0","test"), delete("id0"): count() = 0,
count() is still 0 after close (which does not change the file) and reopen, and
the file length is 12 (header) + 21 (one tombstoned record of footprint
14 + 3 + 4 + 0). -/
theorem s1_scenario_amended :
    s1db.Count = 0 ∧ s1db.file.length = 12 + 21 ∧
      (openDB "test.db" s1db.file).toOption.map DB.Count = some 0 := by decide

/-- C8 counterexample.  A non-empty file shorter than the 12-byte header whose
first 4 bytes are not the magic makes open fail with the header-read I/O error,
not with BadFormat. -/
theorem open_short_file_not_badformat :
    openDB "p" [0, 0, 0, 0] = .error (.ioError "read") ∧
      DBError.ioError "read" ≠ DBError.badFormat "p" := by decide

/-- C8 amended.  For every file of at least the 12 header bytes whose first 4
bytes are not the magic 0xD3EFAA03, open fails with BadFormat carrying the
file's path (and hence returns no store). -/
theorem open_badformat (path : String) (file : List Nat) (h12 : 12 ≤ file.length)
    (hm : deBE (file.take 4) ≠ signature) :
    openDB path file = .error (.badFormat path) := by
  rw [openDB, if_neg (by omega), if_neg (by omega), if_pos hm]

/-- Witness for the amended C8 at a concrete 12-byte zero file. -/
theorem open_badformat_witness :
    openDB "p" (List.replicate 12 0) = .error (.badFormat "p") :=
  open_badformat "p" (List.replicate 12 0) (by decide) (by decide)

/-- A file whose stored counter is 2^64 - 2, reachable by opening a crafted but
magic-correct file. -/
def c9file : List Nat := be32 signature ++ be64 18446744073709551614

/-- C9 counterexample.  On the store recovered from a file with counter
2^64 - 2, two successive next_sequence calls return 2^64 - 1 and then 0: the
uint64 counter wraps, so the returned values are not strictly increasing. -/
theorem nextsequence_wraps_counterexample :
    (openDB "p" c9file).toOption.map
        (fun d => (d.NextSequence.1, d.NextSequence.2.NextSequence.1))
      = some (18446744073709551615, 0) ∧
      ¬ (18446744073709551615 : Nat) < 0 := by decide

/-- C9 amended.  next_sequence is strictly increasing as long as the uint64
counter does not wrap (counter + 2 < 2^64), and the counter survives close and
reopen: on a freshly created store four calls return 1, 2, 3, 4, and after
close (which leaves the file as is) and reopen the next call returns 5. -/
theorem nextsequence_monotone_amended :
    (∀ db : DB, db.counter + 2 < 18446744073709551616 →
      db.NextSequence.1 < db.NextSequence.2.NextSequence.1) ∧
      (emptyDB.NextSequence.1 = 1 ∧
        emptyDB.NextSequence.2.NextSequence.1 = 2 ∧
        emptyDB.NextSequence.2.NextSequence.2.NextSequence.1 = 3 ∧
        emptyDB.NextSequence.2.NextSequence.2.NextSequence.2.NextSequence.1 = 4 ∧
        (openDB "p"
            emptyDB.NextSequence.2.NextSequence.2.NextSequence.2.NextSequence.2.file).toOption.map
            (fun d => d.NextSequence.1) = some 5) := by
  constructor
  · intro db h
    simp only [DB.NextSequence]
    rw [Nat.mod_eq_of_lt (by omega), Nat.mod_eq_of_lt (by omega)]
    omega
  · decide

/-- Witness for the amended C9 general part at the fresh store. -/
theorem nextsequence_monotone_witness :
    emptyDB.NextSequence.1 < emptyDB.NextSequence.2.NextSequence.1 :=
  nextsequence_monotone_amended.1 emptyDB (by decide)

/-! ### Best-fit allocation (C5) -/

/-- The strict (size, offset) order of the free-slot list. -/
def FreeLt (a b : Index) : Prop := a.Size < b.Size ∨ (a.Size = b.Size ∧ a.Offset < b.Offset)

instance : DecidableRel FreeLt := fun _ _ => inferInstanceAs (Decidable (_ ∨ _))

/-- Well-formedness of an in-memory entry: the uint32 fields are in range and
the slot size does not wrap. -/
def EntryWF (e : Index) : Prop :=
  e.Offset < 4294967296 ∧ e.KeySize + e.DataSize + e.EmptySize < 4294967296

instance : DecidablePred EntryWF := fun _ => inferInstanceAs (Decidable (_ ∧ _))

theorem size_le_of_freeLt {a b : Index} (h : FreeLt a b) : a.Size ≤ b.Size := by
  rcases h with h | ⟨h, _⟩
  · omega
  · omega

/-- On a (size, offset)-sorted free list the fit predicate of put is monotone in
the position. -/
theorem fit_mono_of_sorted (d : List Index) (hs : d.Pairwise FreeLt) (need : Nat) :
    ∀ i j, i ≤ j → j < d.length →
      decide (need ≤ (d.getD i default).Size) = true →
      decide (need ≤ (d.getD j default).Size) = true := by
  intro i j hij hj hi
  simp only [decide_eq_true_eq] at hi ⊢
  rcases Nat.eq_or_lt_of_le hij with rfl | hlt
  · exact hi
  · have hilen : i < d.length := lt_trans hlt hj
    rw [List.getD_eq_getElem d default hj]
    rw [List.getD_eq_getElem d default hilen] at hi
    have := (List.pairwise_iff_getElem.mp hs) i j hilen hj hlt
    have := size_le_of_freeLt this
    omega

theorem fitFound_le (d : List Index) (ds : Nat) : fitFound d ds ≤ d.length :=
  sortSearch_le _ _

theorem fitFound_fits {d : List Index} {ds : Nat} (h : fitFound d ds < d.length) :
    ds ≤ (d.getD (fitFound d ds) default).Size := by
  rw [fitFound] at h ⊢
  exact of_decide_eq_true (sortSearch_true_of_lt _ _ h)

theorem fitFound_false_below {d : List Index} {ds : Nat} (hs : d.Pairwise FreeLt) :
    ∀ k, k < fitFound d ds → ¬ ds ≤ (d.getD k default).Size := by
  intro k hk hle
  rw [fitFound] at hk
  have hspec := sortSearch_spec d.length (fun i => decide (ds ≤ (d.getD i default).Size))
    (fit_mono_of_sorted d hs ds)
  have hfalse := hspec.1 k hk
  exact (of_decide_eq_false hfalse) hle

/-- C5.  One put step: with need = len(key) + len(value) and the free list of
the store after put's internal tombstone step (sorted, entries well formed),
either some slot fits (size ≥ need) and put records the key at the offset of
the fitting slot that is first in (size, offset) order — smallest size, ties by
smallest offset — removes exactly that slot and stores EmptySize = size - need;
or no slot fits and put appends the record at end of file with EmptySize 0. -/
theorem put_best_fit (db : DB) (key value : List Nat) (t1 t2 : Nat)
    (hk : key.length ≤ 255) (hkv : key.length + value.length < 4294967296)
    (hsorted : ((db.delete key t1).1).deleted.Pairwise FreeLt)
    (hwf : ∀ e ∈ ((db.delete key t1).1).deleted, EntryWF e)
    (hlen1 : ((db.delete key t1).1).file.length < 4294967296) :
    ((∃ e ∈ ((db.delete key t1).1).deleted, key.length + value.length ≤ e.Size) →
      ∃ i, ∃ _hi : i < ((db.delete key t1).1).deleted.length,
        (key.length + value.length
            ≤ (((db.delete key t1).1).deleted.getD i default).Size) ∧
        (∀ e ∈ ((db.delete key t1).1).deleted, key.length + value.length ≤ e.Size →
          (((db.delete key t1).1).deleted.getD i default).Size < e.Size ∨
            ((((db.delete key t1).1).deleted.getD i default).Size = e.Size ∧
              (((db.delete key t1).1).deleted.getD i default).Offset ≤ e.Offset)) ∧
        lookupA (db.put key value t1 t2).indexes key
          = some ⟨(((db.delete key t1).1).deleted.getD i default).Offset,
              key.length, value.length,
              (((db.delete key t1).1).deleted.getD i default).Size
                - (key.length + value.length)⟩ ∧
        (db.put key value t1 t2).deleted
          = ((db.delete key t1).1).deleted.take i
              ++ ((db.delete key t1).1).deleted.drop (i + 1)) ∧
    ((∀ e ∈ ((db.delete key t1).1).deleted, e.Size < key.length + value.length) →
      lookupA (db.put key value t1 t2).indexes key
        = some ⟨((db.delete key t1).1).file.length, key.length, value.length, 0⟩ ∧
      (db.put key value t1 t2).deleted = ((db.delete key t1).1).deleted ∧
      (db.put key value t1 t2).file
        = ((db.delete key t1).1).file
            ++ (be32 t2 ++ [0, key.length % 256] ++ be32 (value.length % 4294967296)
              ++ be32 0 ++ key ++ value)) := by
  simp only [DB.put]
  set db1 := (db.delete key t1).1 with hdb1
  set d := db1.deleted with hd
  set dl := d.length with hdl
  have hds : (key.length + value.length) % 4294967296 = key.length + value.length :=
    Nat.mod_eq_of_lt hkv
  rw [hds]
  set need := key.length + value.length with hneed
  set found := fitFound d need with hfound
  have hK : key.length % 256 = key.length := Nat.mod_eq_of_lt (by omega)
  have hV : value.length % 4294967296 = value.length := Nat.mod_eq_of_lt (by omega)
  constructor
  · rintro ⟨e, he, hesize⟩
    have hfdraw : fitFound d need < d.length := by
      by_contra hge
      obtain ⟨j, hj, hje⟩ := List.mem_iff_getElem.mp he
      have hnot := @fitFound_false_below d need hsorted j (by omega)
      rw [List.getD_eq_getElem d default hj, hje] at hnot
      exact hnot hesize
    have hfd : found < dl := by
      rw [hfound, hdl]
      exact hfdraw
    have hfdd : found < d.length := by
      rw [hfound]
      exact hfdraw
    have hfit0 : need ≤ (d.getD found default).Size := by
      rw [hfound]
      exact fitFound_fits hfdraw
    refine ⟨found, hfd, hfit0, ?_, ?_, ?_⟩
    · intro e2 he2 he2size
      obtain ⟨j2, hj2, hje2⟩ := List.mem_iff_getElem.mp he2
      have hj2ge : found ≤ j2 := by
        by_contra hlt
        have hnot := @fitFound_false_below d need hsorted j2
          (by rw [← hfound]; omega)
        rw [List.getD_eq_getElem d default hj2, hje2] at hnot
        exact hnot he2size
      rcases Nat.eq_or_lt_of_le hj2ge with rfl | hlt
      · right
        rw [List.getD_eq_getElem d default hj2, hje2]
        exact ⟨rfl, le_refl _⟩
      · have hpair := (List.pairwise_iff_getElem.mp hsorted) found j2 hfdd hj2 hlt
        rw [List.getD_eq_getElem d default hfdd]
        rcases hpair with h | ⟨h, h2⟩
        · left
          rw [← hje2]
          exact h
        · right
          rw [← hje2]
          exact ⟨h, le_of_lt h2⟩
    · have hslotwf : EntryWF (d.getD found default) := hwf _ (getD_mem hfdd)
      have hsize32 : (d.getD found default).Size < 4294967296 := by
        rw [Index.Size]
        exact Nat.mod_lt _ (by omega)
      have hemp : ((d.getD found default).Size + 4294967296 - need) % 4294967296
          = (d.getD found default).Size - need := by
        omega
      rw [if_pos hfd, if_pos hfd, lookupA_insertA_self]
      rw [hemp, hK, hV, Nat.mod_eq_of_lt hslotwf.1]
    · rw [if_pos hfd]
  · intro hnone
    have hfd : ¬ found < dl := by
      intro hfd
      have hfdraw : fitFound d need < d.length := by
        rw [← hfound, ← hdl]
        exact hfd
      have h6 := fitFound_fits hfdraw
      rw [← hfound] at h6
      have h7 := hnone _ (getD_mem (l := d) (n := found) (by rw [hfound]; exact hfdraw))
      omega
    refine ⟨?_, ?_, ?_⟩
    · rw [if_neg hfd, if_neg hfd, lookupA_insertA_self, hK, hV, Nat.mod_eq_of_lt hlen1]
    · rw [if_neg hfd]
    · rw [if_neg hfd, if_neg hfd, hV, writeAt_at_length]

/-- Witness for C5 at a concrete store: two free slots of sizes 2 and 5 after
deleting both keys; a put needing 3 bytes reuses the size-5 slot at offset 30
and records EmptySize 2. -/
theorem put_best_fit_witness :
    let db := applyOps emptyDB
      [.put [1] [2] 0 0, .put [3] [4, 5, 6, 7] 0 0, .del [1] 0, .del [3] 0]
    (∃ e ∈ ((db.delete [8] 0).1).deleted, ([8] : Key).length + ([9, 9] : List Nat).length ≤ e.Size) →
      ∃ i, ∃ _hi : i < ((db.delete [8] 0).1).deleted.length,
        (([8] : Key).length + ([9, 9] : List Nat).length
            ≤ (((db.delete [8] 0).1).deleted.getD i default).Size) ∧
        (∀ e ∈ ((db.delete [8] 0).1).deleted,
            ([8] : Key).length + ([9, 9] : List Nat).length ≤ e.Size →
          (((db.delete [8] 0).1).deleted.getD i default).Size < e.Size ∨
            ((((db.delete [8] 0).1).deleted.getD i default).Size = e.Size ∧
              (((db.delete [8] 0).1).deleted.getD i default).Offset ≤ e.Offset)) ∧
        lookupA (db.put [8] [9, 9] 0 0).indexes [8]
          = some ⟨(((db.delete [8] 0).1).deleted.getD i default).Offset,
              ([8] : Key).length, ([9, 9] : List Nat).length,
              (((db.delete [8] 0).1).deleted.getD i default).Size
                - (([8] : Key).length + ([9, 9] : List Nat).length)⟩ ∧
        (db.put [8] [9, 9] 0 0).deleted
          = ((db.delete [8] 0).1).deleted.take i
              ++ ((db.delete [8] 0).1).deleted.drop (i + 1) := by
  intro db
  exact (put_best_fit db [8] [9, 9] 0 0 (by decide) (by decide) (by decide) (by decide)
    (by decide)).1

/-! ### Delete failure atomicity (C10) -/

theorem readAt_writeAt_outside (f : List Nat) {off : Nat} (b : List Nat) {p : Nat} (n : Nat)
    (h : off + b.length ≤ p) (hf : off + b.length ≤ f.length) :
    readAt (writeAt f off b) p n = readAt f p n := by
  have hlen : (writeAt f off b).length = f.length := by
    rw [length_writeAt]
    omega
  rw [readAt, readAt, hlen, drop_writeAt_of_ge f b h (by omega)]

/-- C10.  If the 5-byte tombstone write fails (fewer than 5 bytes reach the
file), delete returns the I/O error and leaves the key index and the free-slot
list untouched; the key is still present and get still returns its stored
value (only header bytes before the data region were overwritten). -/
theorem delete_write_error_atomic (db : DB) (key : Key) (t written : Nat) (e : Index)
    (hlook : lookupA db.indexes key = some e)
    (hw : written < 5)
    (hhdr : e.Offset + 14 ≤ db.file.length)
    (hin : e.DataOffset + e.DataSize ≤ db.file.length) :
    (db.deleteCore key t written).2 = some (.ioError "write") ∧
    (db.deleteCore key t written).1.indexes = db.indexes ∧
    (db.deleteCore key t written).1.deleted = db.deleted ∧
    (db.deleteCore key t written).1.get key = db.get key ∧
    (∃ v, db.get key = .ok v) := by
  have hbl : ((be32 t ++ [1]).take written).length = written := by
    rw [List.length_take]
    simp only [List.length_append, length_be32, List.length_cons, List.length_nil]
    omega
  rw [DB.deleteCore, hlook]
  simp only [if_pos hw]
  refine ⟨trivial, trivial, trivial, ?_, ?_⟩
  · simp only [DB.get, hlook]
    rw [readAt_writeAt_outside db.file _ e.DataSize
      (by rw [hbl, Index.DataOffset, indexSize]; omega) (by omega)]
  · rw [DB.get, hlook]
    simp only [readAt, if_pos hin]
    exact ⟨_, rfl⟩

/-- Witness for C10: on the store holding key [1] with value [2, 3], a
tombstone write that reports only 3 bytes written fails and changes nothing. -/
theorem delete_write_error_atomic_witness :
    let db := applyOps emptyDB [.put [1] [2, 3] 0 0]
    (db.deleteCore [1] 0 3).2 = some (.ioError "write") ∧
    (db.deleteCore [1] 0 3).1.indexes = db.indexes ∧
    (db.deleteCore [1] 0 3).1.deleted = db.deleted ∧
    (db.deleteCore [1] 0 3).1.get [1] = db.get [1] ∧
    (∃ v, db.get [1] = .ok v) := by
  intro db
  exact delete_write_error_atomic db [1] 0 3 ⟨12, 1, 2, 0⟩ (by decide) (by decide)
    (by decide) (by decide)

/-! ### Free-slot reuse (C6) -/

theorem sortSearch_zero (f : Nat → Bool) : sortSearch 0 f = 0 := rfl

theorem sortSearch_one_true (f : Nat → Bool) (h : f 0 = true) : sortSearch 1 f = 0 := by
  simp [sortSearch, searchGo, h]

theorem fitFound_nil (ds : Nat) : fitFound [] ds = 0 := rfl

theorem freePos_nil (idx : Index) : freePos [] idx = 0 := rfl

theorem fitFound_single_fits (e : Index) (ds : Nat) (h : ds ≤ e.Size) :
    fitFound [e] ds = 0 := by
  rw [fitFound]
  apply sortSearch_one_true
  show decide (ds ≤ (([e] : List Index).getD 0 default).Size) = true
  simp only [decide_eq_true_eq]
  exact h

/-- put into a store with no free slot and without the key: append at end of
file. -/
theorem put_append_char (db : DB) (key value : List Nat) (t1 t2 : Nat)
    (hnotin : lookupA db.indexes key = none) (hdel : db.deleted = []) :
    db.put key value t1 t2
      = ⟨db.file ++ (be32 t2 ++ [0, key.length % 256] ++ be32 (value.length % 4294967296)
            ++ be32 0 ++ key ++ value),
         insertA db.indexes key
           ⟨db.file.length % 4294967296, key.length % 256, value.length % 4294967296, 0⟩,
         [], db.counter⟩ := by
  simp only [DB.put, DB.delete, DB.deleteCore, hnotin, hdel]
  simp only [List.length_nil, fitFound_nil, Nat.lt_irrefl, if_false, writeAt_at_length]

/-- delete of the only key when the free list is empty. -/
theorem delete_single_char (db : DB) (key : Key) (e : Index) (t : Nat)
    (hlook : lookupA db.indexes key = some e) (hdel : db.deleted = []) :
    (db.delete key t).1
      = ⟨writeAt db.file e.Offset ((be32 t ++ [1]).take 5), eraseKey key db.indexes,
         [e], db.counter⟩ := by
  simp only [DB.delete, DB.deleteCore, hlook, hdel]
  norm_num [freePos_nil]

/-- put into a store whose free list is the single fitting slot e and whose
index lacks the key: reuse the slot. -/
theorem put_slot_char (db : DB) (key value : List Nat) (t1 t2 : Nat) (e : Index)
    (hnotin : lookupA db.indexes key = none) (hdel : db.deleted = [e])
    (hfit : (key.length + value.length) % 4294967296 ≤ e.Size) :
    db.put key value t1 t2
      = ⟨writeAt db.file e.Offset
           (be32 t2 ++ [0, key.length % 256] ++ be32 (value.length % 4294967296)
             ++ be32 ((e.Size + 4294967296 - (key.length + value.length) % 4294967296)
                 % 4294967296)
             ++ key ++ value),
         insertA db.indexes key
           ⟨e.Offset % 4294967296, key.length % 256, value.length % 4294967296,
             (e.Size + 4294967296 - (key.length + value.length) % 4294967296) % 4294967296⟩,
         [], db.counter⟩ := by
  have hfound := fitFound_single_fits e ((key.length + value.length) % 4294967296) hfit
  simp only [DB.put, DB.delete, DB.deleteCore, hnotin, hdel, hfound]
  norm_num

/-- C6.  From an empty store: put(k, v) lands at offset 12 with the file
growing to hold it; after delete(k) and a second put(k2, v2) with
len(k2) + len(v2) ≤ len(k) + len(v), the new record sits at the same offset 12,
the file length is unchanged, and the new record's EmptySize is the size
difference. -/
theorem free_slot_reuse (k v k2 v2 : List Nat) (t1 t2 t3 t4 t5 : Nat)
    (hl1 : 1 ≤ k.length) (hl2 : k.length ≤ 255)
    (hl3 : 1 ≤ k2.length) (hl4 : k2.length ≤ 255)
    (hkv : k.length + v.length < 4294967296)
    (hle : k2.length + v2.length ≤ k.length + v.length) :
    lookupA (emptyDB.put k v t1 t2).indexes k = some ⟨12, k.length, v.length, 0⟩ ∧
    lookupA ((((emptyDB.put k v t1 t2).delete k t3).1).put k2 v2 t4 t5).indexes k2
      = some ⟨12, k2.length, v2.length,
          (k.length + v.length) - (k2.length + v2.length)⟩ ∧
    ((((emptyDB.put k v t1 t2).delete k t3).1).put k2 v2 t4 t5).file.length
      = (emptyDB.put k v t1 t2).file.length := by
  have hK : k.length % 256 = k.length := Nat.mod_eq_of_lt (by omega)
  have hV : v.length % 4294967296 = v.length := Nat.mod_eq_of_lt (by omega)
  have hK2 : k2.length % 256 = k2.length := Nat.mod_eq_of_lt (by omega)
  have hV2 : v2.length % 4294967296 = v2.length := Nat.mod_eq_of_lt (by omega)
  have hds2 : (k2.length + v2.length) % 4294967296 = k2.length + v2.length :=
    Nat.mod_eq_of_lt (by omega)
  have hlen0 : emptyDB.file.length = 12 := rfl
  have h12 : (12 : Nat) % 4294967296 = 12 := by norm_num
  have hs1 := put_append_char emptyDB k v t1 t2 rfl rfl
  rw [hlen0, h12, hK, hV] at hs1
  set idx1 : Index := ⟨12, k.length, v.length, 0⟩ with hidx1
  have hoffv : idx1.Offset = 12 := rfl
  have hsize1 : idx1.Size = k.length + v.length := by
    rw [hidx1, Index.Size]
    simp only
    omega
  have hlook1 : lookupA (emptyDB.put k v t1 t2).indexes k = some idx1 := by
    rw [hs1]
    simp only [emptyDB]
    exact lookupA_insertA_self _ _ _
  have hdel1 : (emptyDB.put k v t1 t2).deleted = [] := by rw [hs1]
  have hs2 := delete_single_char (emptyDB.put k v t1 t2) k idx1 t3 hlook1 hdel1
  have hlook2 : lookupA ((emptyDB.put k v t1 t2).delete k t3).1.indexes k2 = none := by
    rw [hs2]
    simp only [hs1, emptyDB]
    simp only [insertA, eraseKey, if_pos rfl]
    rfl
  have hdel2 : ((emptyDB.put k v t1 t2).delete k t3).1.deleted = [idx1] := by rw [hs2]
  have hfit : (k2.length + v2.length) % 4294967296 ≤ idx1.Size := by
    rw [hds2, hsize1]
    exact hle
  have hs3 := put_slot_char _ k2 v2 t4 t5 idx1 hlook2 hdel2 hfit
  have hemp : (idx1.Size + 4294967296 - (k2.length + v2.length) % 4294967296) % 4294967296
      = (k.length + v.length) - (k2.length + v2.length) := by
    rw [hds2, hsize1]
    omega
  refine ⟨hlook1, ?_, ?_⟩
  · rw [hs3]
    rw [lookupA_insertA_self]
    rw [hemp, hK2, hV2]
    have hoff : idx1.Offset % 4294967296 = 12 := by
      rw [hoffv]
    rw [hoff]
  · have hfile1 : (emptyDB.put k v t1 t2).file
        = emptyDB.file ++ (be32 t2 ++ [0, k.length] ++ be32 v.length ++ be32 0 ++ k ++ v) := by
      rw [hs1]
    have hfile2 : ((emptyDB.put k v t1 t2).delete k t3).1.file
        = writeAt (emptyDB.put k v t1 t2).file idx1.Offset ((be32 t3 ++ [1]).take 5) := by
      rw [hs2]
    have hfile3 : (((emptyDB.put k v t1 t2).delete k t3).1.put k2 v2 t4 t5).file
        = writeAt ((emptyDB.put k v t1 t2).delete k t3).1.file idx1.Offset
            (be32 t5 ++ [0, k2.length % 256] ++ be32 (v2.length % 4294967296)
              ++ be32 ((idx1.Size + 4294967296 - (k2.length + v2.length) % 4294967296)
                  % 4294967296) ++ k2 ++ v2) := by
      rw [hs3]
    have h5 : ((be32 t3 ++ [1]).take 5).length = 5 := rfl
    have hb1 : (be32 t2 ++ [0, k.length] ++ be32 v.length ++ be32 0 ++ k ++ v).length
        = 14 + k.length + v.length := buf_total_length _ _ _ _ _ _
    have hf1len : (emptyDB.put k v t1 t2).file.length = 26 + (k.length + v.length) := by
      rw [hfile1, List.length_append, hb1, hlen0]
      omega
    have hf2len : ((emptyDB.put k v t1 t2).delete k t3).1.file.length
        = 26 + (k.length + v.length) := by
      rw [hfile2, length_writeAt, h5, hf1len, hoffv]
      omega
    rw [hfile3, length_writeAt, buf_total_length, hf2len, hf1len, hoffv]
    omega

/-- Witness for C6 with a 2-byte key, 4-byte value, then a 1-byte key with a
2-byte value: the slot at offset 12 is reused with EmptySize 3. -/
theorem free_slot_reuse_witness :
    lookupA (emptyDB.put [1, 2] [5, 5, 5, 5] 0 0).indexes [1, 2]
        = some ⟨12, 2, 4, 0⟩ ∧
    lookupA ((((emptyDB.put [1, 2] [5, 5, 5, 5] 0 0).delete [1, 2] 0).1).put
        [7] [8, 8] 0 0).indexes [7] = some ⟨12, 1, 2, 3⟩ ∧
    ((((emptyDB.put [1, 2] [5, 5, 5, 5] 0 0).delete [1, 2] 0).1).put
        [7] [8, 8] 0 0).file.length = (emptyDB.put [1, 2] [5, 5, 5, 5] 0 0).file.length := by
  have h := free_slot_reuse [1, 2] [5, 5, 5, 5] [7] [8, 8] 0 0 0 0 0
    (by decide) (by decide) (by decide) (by decide) (by decide) (by decide)
  simpa using h

/-! ### Ghost records: the file of a reachable store as a list of records -/

/-- Ghost description of one on-disk record: time, tombstone flag, key bytes,
value bytes and padding bytes. -/
structure Rec where
  rtime : Nat
  rdel : Bool
  rkey : List Nat
  rdata : List Nat
  rpad : List Nat
deriving DecidableEq, Repr

/-- The bytes of a record: the 14-byte header of §3, then key, value, padding. -/
def encodeRec (r : Rec) : List Nat :=
  be32 r.rtime ++ [if r.rdel then 1 else 0, r.rkey.length % 256]
    ++ be32 r.rdata.length ++ be32 r.rpad.length ++ r.rkey ++ r.rdata ++ r.rpad

/-- The record footprint 14 + key_size + data_size + empty_size. -/
def footprint (r : Rec) : Nat :=
  14 + r.rkey.length + r.rdata.length + r.rpad.length

def recsBytes : List Rec → List Nat
  | [] => []
  | r :: rs => encodeRec r ++ recsBytes rs

/-- Well-formed record: key of 1..255 bytes, total payload below 2^32, stored
time already reduced mod 2^32. -/
def RecWF (r : Rec) : Prop :=
  1 ≤ r.rkey.length ∧ r.rkey.length ≤ 255 ∧
    r.rkey.length + r.rdata.length + r.rpad.length < 4294967296 ∧
    r.rtime < 4294967296

/-- The in-memory entry a record at absolute offset pos denotes.  The mod
operations are the uint32/uint8 stores of the Go struct fields. -/
def recEntry (pos : Nat) (r : Rec) : Index :=
  ⟨pos % 4294967296, r.rkey.length % 256, r.rdata.length % 4294967296,
    r.rpad.length % 4294967296⟩

/-- The live (key → entry) bindings of a record list starting at offset pos, in
file order. -/
def liveAssocFrom (pos : Nat) : List Rec → List (Key × Index)
  | [] => []
  | r :: rs =>
    if r.rdel then liveAssocFrom (pos + footprint r) rs
    else (r.rkey, recEntry pos r) :: liveAssocFrom (pos + footprint r) rs

/-- The tombstone entries of a record list starting at offset pos, in file
order. -/
def deadFrom (pos : Nat) : List Rec → List Index
  | [] => []
  | r :: rs =>
    if r.rdel then recEntry pos r :: deadFrom (pos + footprint r) rs
    else deadFrom (pos + footprint r) rs

def liveKeys (recs : List Rec) : List Key := (liveAssocFrom 12 recs).map Prod.fst

/-- The reachable-state invariant tying a store to its ghost record list. -/
structure Inv (db : DB) (recs : List Rec) : Prop where
  hfile : db.file = be32 signature ++ be64 db.counter ++ recsBytes recs
  hlen : db.file.length < 4294967296
  hctr : db.counter < 18446744073709551616
  hwf : ∀ r ∈ recs, RecWF r
  hnodup : (liveKeys recs).Nodup
  hidx : ∀ k, lookupA db.indexes k = lookupA (liveAssocFrom 12 recs) k
  hperm : db.deleted.Perm (deadFrom 12 recs)
  hsorted : db.deleted.Pairwise FreeLt

@[simp] theorem length_encodeRec (r : Rec) : (encodeRec r).length = footprint r := by
  simp [encodeRec, footprint]
  omega

theorem recsBytes_append (a b : List Rec) :
    recsBytes (a ++ b) = recsBytes a ++ recsBytes b := by
  induction a with
  | nil => simp [recsBytes]
  | cons r rs ih => simp [recsBytes, ih]

theorem liveAssocFrom_append (pos : Nat) (a b : List Rec) :
    liveAssocFrom pos (a ++ b)
      = liveAssocFrom pos a ++ liveAssocFrom (pos + (recsBytes a).length) b := by
  induction a generalizing pos with
  | nil => simp [liveAssocFrom, recsBytes]
  | cons r rs ih =>
    simp only [List.cons_append, liveAssocFrom, recsBytes, List.length_append,
      length_encodeRec, List.append_eq]
    split
    · rw [ih]
      congr 2
      omega
    · rw [ih]
      simp only [List.cons_append]
      congr 3
      omega

theorem deadFrom_append (pos : Nat) (a b : List Rec) :
    deadFrom pos (a ++ b)
      = deadFrom pos a ++ deadFrom (pos + (recsBytes a).length) b := by
  induction a generalizing pos with
  | nil => simp [deadFrom, recsBytes]
  | cons r rs ih =>
    simp only [List.cons_append, deadFrom, recsBytes, List.length_append, length_encodeRec,
      List.append_eq]
    split
    · rw [ih]
      simp only [List.cons_append]
      congr 3
      omega
    · rw [ih]
      congr 2
      omega

theorem lookupA_append {α : Type} (a b : List (Key × α)) (k : Key) :
    lookupA (a ++ b) k
      = match lookupA a k with
        | some v => some v
        | none => lookupA b k := by
  induction a with
  | nil => simp [lookupA]
  | cons kv rest ih =>
    obtain ⟨k2, v2⟩ := kv
    simp only [List.cons_append, lookupA]
    split
    · rfl
    · exact ih

theorem lookupA_eq_none_iff {α : Type} (l : List (Key × α)) (k : Key) :
    lookupA l k = none ↔ k ∉ l.map Prod.fst := by
  induction l with
  | nil => simp [lookupA]
  | cons kv rest ih =>
    obtain ⟨k2, v2⟩ := kv
    simp only [lookupA, List.map_cons, List.mem_cons]
    split
    · rename_i he
      subst he
      simp
    · rename_i hne
      rw [ih]
      constructor
      · intro h hmem
        rcases hmem with h1 | h1
        · exact hne h1.symm
        · exact h h1
      · intro h hmem
        exact h (Or.inr hmem)

/-! ### Byte-level facts about encoded records -/

theorem encodeRec_take4 (r : Rec) (rest : List Nat) :
    ((encodeRec r ++ rest).take 4) = be32 r.rtime := rfl

theorem encodeRec_flag (r : Rec) (rest : List Nat) :
    (encodeRec r ++ rest).getD 4 0 = if r.rdel then 1 else 0 := rfl

theorem encodeRec_ksz (r : Rec) (rest : List Nat) :
    (encodeRec r ++ rest).getD 5 0 = r.rkey.length % 256 := rfl

theorem encodeRec_ds (r : Rec) (rest : List Nat) :
    ((encodeRec r ++ rest).drop 6).take 4 = be32 r.rdata.length := rfl

theorem encodeRec_es (r : Rec) (rest : List Nat) :
    ((encodeRec r ++ rest).drop 10).take 4 = be32 r.rpad.length := rfl

theorem encodeRec_drop14_append (r : Rec) (rest : List Nat) :
    (encodeRec r ++ rest).drop 14 = r.rkey ++ r.rdata ++ r.rpad ++ rest := rfl

theorem encodeRec_drop14 (r : Rec) :
    (encodeRec r).drop 14 = r.rkey ++ r.rdata ++ r.rpad := rfl

theorem encodeRec_drop5 (r : Rec) :
    (encodeRec r).drop 5
      = [r.rkey.length % 256] ++ be32 r.rdata.length ++ be32 r.rpad.length
          ++ r.rkey ++ r.rdata ++ r.rpad := rfl

theorem header_take4 (ctr : Nat) (rest : List Nat) :
    (be32 signature ++ be64 ctr ++ rest).take 4 = be32 signature := rfl

theorem header_counter (ctr : Nat) (rest : List Nat) :
    ((be32 signature ++ be64 ctr ++ rest).drop 4).take 8 = be64 ctr := rfl

theorem header_drop12 (ctr : Nat) (rest : List Nat) :
    (be32 signature ++ be64 ctr ++ rest).drop 12 = rest := rfl

theorem patch_take5 (t : Nat) : (be32 t ++ [1]).take 5 = be32 t ++ [1] := rfl

/-- Overwriting the first bytes of the middle segment of a file. -/
theorem writeAt_mid (pre mid post b : List Nat) (hb : b.length ≤ mid.length) :
    writeAt (pre ++ mid ++ post) pre.length b
      = pre ++ (b ++ mid.drop b.length) ++ post := by
  rw [writeAt]
  have h1 : (pre ++ mid ++ post).take pre.length = pre := by
    rw [List.append_assoc, List.take_left]
  have h2 : pre.length - (pre ++ mid ++ post).length = 0 := by
    simp only [List.length_append]
    omega
  have h3 : (pre ++ mid ++ post).drop (pre.length + b.length) = mid.drop b.length ++ post := by
    rw [List.append_assoc, List.drop_append, List.drop_append_eq_append_drop,
      Nat.sub_eq_zero_of_le hb, List.drop_zero]
  rw [h1, h2, h3]
  simp [List.append_assoc]

/-- Tombstoning rewrites a record in place: the 5-byte patch plus the untouched
tail of the record encode the record with updated time and deleted flag. -/
theorem encodeRec_tombstone (r : Rec) (t : Nat) :
    encodeRec { r with rtime := t % 4294967296, rdel := true }
      = (be32 t ++ [1]) ++ (encodeRec r).drop 5 := by
  rw [encodeRec_drop5]
  simp only [encodeRec, be32_mod]
  simp [List.append_assoc]

theorem encodeRec_drop_14_add (q : Rec) (n : Nat) :
    (encodeRec q).drop (14 + n) = (q.rkey ++ q.rdata ++ q.rpad).drop n := by
  rw [← List.drop_drop, encodeRec_drop14]

/-- Reusing a slot rewrites the record in place: the put buffer plus the
untouched padding tail encode the new live record. -/
theorem encodeRec_reuse (q : Rec) (key value : List Nat) (t2 : Nat) :
    encodeRec ⟨t2 % 4294967296, false, key, value,
        (q.rkey ++ q.rdata ++ q.rpad).drop (key.length + value.length)⟩
      = (be32 t2 ++ [0, key.length % 256]
          ++ be32 (value.length % 4294967296)
          ++ be32 ((q.rkey ++ q.rdata ++ q.rpad).drop (key.length + value.length)).length
          ++ key ++ value)
        ++ (q.rkey ++ q.rdata ++ q.rpad).drop (key.length + value.length) := by
  simp only [encodeRec, be32_mod]
  simp [List.append_assoc]

/-! ### The recovery scan over a well-formed record list -/

/-- One abstract recovery step: what the scan loop body does to its three
accumulators when it parses the record r sitting at offset pos. -/
def scanStep (pos : Nat) (r : Rec)
    (acc : List (Key × Index) × List (Key × Nat) × List Index) :
    List (Key × Index) × List (Key × Nat) × List Index :=
  let idx := recEntry pos r
  if r.rdel then (acc.1, acc.2.1, acc.2.2 ++ [idx])
  else
    match lookupA acc.1 r.rkey with
    | some old =>
      if (lookupA acc.2.1 r.rkey).getD 0 < r.rtime then
        (insertA acc.1 r.rkey idx, insertA acc.2.1 r.rkey r.rtime, acc.2.2 ++ [old])
      else (acc.1, acc.2.1, acc.2.2 ++ [idx])
    | none => (insertA acc.1 r.rkey idx, insertA acc.2.1 r.rkey r.rtime, acc.2.2)

def scanAbs : List Rec → Nat → (List (Key × Index) × List (Key × Nat) × List Index) →
    List (Key × Index) × List (Key × Nat) × List Index
  | [], _, acc => acc
  | r :: rs, pos, acc => scanAbs rs (pos + footprint r) (scanStep pos r acc)

theorem recEntry_wf {r : Rec} (pos : Nat) (h : RecWF r) :
    recEntry pos r
      = ⟨pos % 4294967296, r.rkey.length, r.rdata.length, r.rpad.length⟩ := by
  obtain ⟨h1, h2, h3, h4⟩ := h
  simp only [recEntry, Index.mk.injEq]
  refine ⟨trivial, ?_, ?_, ?_⟩ <;> omega

theorem scanGo_step (r : Rec) (rest : List Nat) (hwf : RecWF r) (fuel : Nat) (pos : Nat)
    (idx : List (Key × Index)) (times : List (Key × Nat)) (del : List Index) :
    scanGo (fuel + 1) (encodeRec r ++ rest) pos idx times del
      = scanGo fuel rest (pos + footprint r) (scanStep pos r (idx, times, del)).1
          (scanStep pos r (idx, times, del)).2.1 (scanStep pos r (idx, times, del)).2.2 := by
  obtain ⟨hk1, hk2, htot, ht⟩ := hwf
  have hlenrem : (encodeRec r ++ rest).length = footprint r + rest.length := by
    simp [length_encodeRec]
  have hfp : 15 ≤ footprint r := by
    rw [footprint]
    omega
  have h1 : r.rtime % 4294967296 = r.rtime := Nat.mod_eq_of_lt ht
  have h2 : r.rkey.length % 256 = r.rkey.length := Nat.mod_eq_of_lt (by omega)
  have h3 : r.rdata.length % 4294967296 = r.rdata.length := Nat.mod_eq_of_lt (by omega)
  have h4 : r.rpad.length % 4294967296 = r.rpad.length := Nat.mod_eq_of_lt (by omega)
  have h5 : r.rkey.length - ((encodeRec r ++ rest).length - 14) = 0 := by
    rw [hlenrem, footprint]
    omega
  have h6 : (r.rkey ++ r.rdata ++ r.rpad ++ rest).take r.rkey.length = r.rkey := by
    rw [List.append_assoc, List.append_assoc, List.take_left]
  have h7 : storedSize r.rkey.length r.rdata.length r.rpad.length = footprint r := by
    rw [storedSize, storedIndexSize, footprint]
    omega
  have h8 : (encodeRec r ++ rest).drop (footprint r) = rest := by
    rw [← length_encodeRec, List.drop_left]
  have hre : recEntry pos r
      = ⟨pos % 4294967296, r.rkey.length, r.rdata.length, r.rpad.length⟩ :=
    recEntry_wf pos ⟨hk1, hk2, htot, ht⟩
  simp only [scanGo]
  rw [if_neg (by rw [hlenrem]; omega), if_neg (by rw [hlenrem]; omega)]
  rw [encodeRec_take4, deBE_be32, h1, encodeRec_flag, encodeRec_ksz, h2,
    encodeRec_ds, deBE_be32, h3, encodeRec_es, deBE_be32, h4,
    encodeRec_drop14_append, h6, h5]
  rw [if_neg (by rw [hlenrem]; rw [footprint] at *; omega)]
  simp only [List.replicate_zero, List.append_nil, h7, h8]
  cases hdel : r.rdel with
  | true => simp [scanStep, hdel, hre]
  | false => simp [scanStep, hdel, hre]

theorem scanGo_recsBytes (recs : List Rec) (fuel pos : Nat)
    (idx : List (Key × Index)) (times : List (Key × Nat)) (del : List Index)
    (hwf : ∀ r ∈ recs, RecWF r) (hfuel : recs.length < fuel) :
    scanGo fuel (recsBytes recs) pos idx times del
      = .ok ((scanAbs recs pos (idx, times, del)).1,
          (scanAbs recs pos (idx, times, del)).2.2) := by
  induction recs generalizing fuel pos idx times del with
  | nil =>
    cases fuel with
    | zero => omega
    | succ f => simp [recsBytes, scanGo, scanAbs]
  | cons r rs ih =>
    cases fuel with
    | zero => simp at hfuel
    | succ f =>
      rw [recsBytes, scanGo_step r (recsBytes rs) (hwf r (List.mem_cons_self r rs)) f pos]
      rw [ih f _ _ _ _ (fun r2 h2 => hwf r2 (List.mem_cons_of_mem _ h2))
        (by simp only [List.length_cons] at hfuel; omega)]
      rfl

/-- The abstract scan starting from an index disjoint from the live keys (and
with those live keys distinct, as in every reachable file) produces exactly the
live bindings on top of the start index, and appends exactly the tombstone
entries to the free accumulator. -/
theorem scanAbs_spec (recs : List Rec) (pos : Nat) (idx0 : List (Key × Index))
    (times0 : List (Key × Nat)) (del0 : List Index)
    (hnodup : ((liveAssocFrom pos recs).map Prod.fst).Nodup)
    (hdisj : ∀ k e, lookupA (liveAssocFrom pos recs) k = some e → lookupA idx0 k = none) :
    (∀ k, lookupA (scanAbs recs pos (idx0, times0, del0)).1 k
        = match lookupA (liveAssocFrom pos recs) k with
          | some e => some e
          | none => lookupA idx0 k) ∧
    (scanAbs recs pos (idx0, times0, del0)).2.2 = del0 ++ deadFrom pos recs := by
  induction recs generalizing pos idx0 times0 del0 with
  | nil => simp [scanAbs, liveAssocFrom, deadFrom, lookupA]
  | cons r rs ih =>
    cases hdel : r.rdel with
    | true =>
      have hlive : liveAssocFrom pos (r :: rs) = liveAssocFrom (pos + footprint r) rs := by
        simp [liveAssocFrom, hdel]
      have hdead : deadFrom pos (r :: rs)
          = recEntry pos r :: deadFrom (pos + footprint r) rs := by
        simp [deadFrom, hdel]
      have hstep : scanStep pos r (idx0, times0, del0)
          = (idx0, times0, del0 ++ [recEntry pos r]) := by
        simp [scanStep, hdel]
      rw [hlive] at hnodup hdisj
      have hres := ih (pos + footprint r) idx0 times0 (del0 ++ [recEntry pos r])
        hnodup hdisj
      refine ⟨?_, ?_⟩
      · intro k
        rw [scanAbs, hstep, hlive]
        exact hres.1 k
      · rw [scanAbs, hstep, hdead, hres.2, List.append_assoc, List.singleton_append]
    | false =>
      have hlive : liveAssocFrom pos (r :: rs)
          = (r.rkey, recEntry pos r) :: liveAssocFrom (pos + footprint r) rs := by
        simp [liveAssocFrom, hdel]
      have hdead : deadFrom pos (r :: rs) = deadFrom (pos + footprint r) rs := by
        simp [deadFrom, hdel]
      rw [hlive] at hnodup hdisj
      have hheadlook : lookupA ((r.rkey, recEntry pos r)
          :: liveAssocFrom (pos + footprint r) rs) r.rkey = some (recEntry pos r) := by
        simp [lookupA]
      have hidx0key : lookupA idx0 r.rkey = none := hdisj r.rkey (recEntry pos r) hheadlook
      have hstep : scanStep pos r (idx0, times0, del0)
          = (insertA idx0 r.rkey (recEntry pos r), insertA times0 r.rkey r.rtime, del0) := by
        simp [scanStep, hdel, hidx0key]
      have hkeytail : r.rkey ∉ (liveAssocFrom (pos + footprint r) rs).map Prod.fst := by
        simp only [List.map_cons, List.nodup_cons] at hnodup
        exact hnodup.1
      have htailnone : lookupA (liveAssocFrom (pos + footprint r) rs) r.rkey = none :=
        (lookupA_eq_none_iff _ _).mpr hkeytail
      have hnodup2 : ((liveAssocFrom (pos + footprint r) rs).map Prod.fst).Nodup := by
        simp only [List.map_cons, List.nodup_cons] at hnodup
        exact hnodup.2
      have hdisj2 : ∀ k e, lookupA (liveAssocFrom (pos + footprint r) rs) k = some e →
          lookupA (insertA idx0 r.rkey (recEntry pos r)) k = none := by
        intro k e he
        by_cases hk : k = r.rkey
        · rw [hk, htailnone] at he
          exact absurd he (by simp)
        · rw [lookupA_insertA_ne _ _ hk]
          apply hdisj k e
          simp only [lookupA]
          rw [if_neg (fun hh => hk hh.symm)]
          exact he
      have hres := ih (pos + footprint r) (insertA idx0 r.rkey (recEntry pos r))
        (insertA times0 r.rkey r.rtime) del0 hnodup2 hdisj2
      refine ⟨?_, ?_⟩
      · intro k
        rw [scanAbs, hstep, hlive]
        rw [hres.1 k]
        by_cases hk : k = r.rkey
        · subst hk
          rw [htailnone]
          show lookupA (insertA idx0 r.rkey (recEntry pos r)) r.rkey
              = match lookupA ((r.rkey, recEntry pos r)
                  :: liveAssocFrom (pos + footprint r) rs) r.rkey with
                | some e => some e
                | none => lookupA idx0 r.rkey
          rw [lookupA_insertA_self, hheadlook]
        · have hconsk : lookupA ((r.rkey, recEntry pos r)
              :: liveAssocFrom (pos + footprint r) rs) k
              = lookupA (liveAssocFrom (pos + footprint r) rs) k := by
            simp only [lookupA]
            rw [if_neg (fun hh => hk hh.symm)]
          rw [hconsk]
          cases htail : lookupA (liveAssocFrom (pos + footprint r) rs) k with
          | some e => rfl
          | none => exact lookupA_insertA_ne _ _ hk
      · rw [scanAbs, hstep, hdead]
        exact hres.2

theorem recsBytes_len_ge (recs : List Rec) : recs.length ≤ (recsBytes recs).length := by
  induction recs with
  | nil => simp [recsBytes]
  | cons r rs ih =>
    simp only [recsBytes, List.length_append, length_encodeRec, List.length_cons]
    have hfp : 14 ≤ footprint r := by
      rw [footprint]
      omega
    omega

/-- Reopening the file of a store satisfying the invariant succeeds and yields
the scanned index, the (size, offset)-sorted tombstone entries and the stored
counter. -/
theorem openDB_inv (path : String) (db : DB) (recs : List Rec) (hinv : Inv db recs) :
    openDB path db.file
      = .ok ⟨db.file, (scanAbs recs 12 ([], [], [])).1,
          sortByLess lessFree (deadFrom 12 recs), db.counter⟩ := by
  obtain ⟨hfile, hlen, hctr, hwf, hnodup, hidx, hperm, hsorted⟩ := hinv
  have hlen12 : db.file.length = 12 + (recsBytes recs).length := by
    rw [hfile]
    simp
    omega
  have hA := scanAbs_spec recs 12 [] [] [] hnodup (fun k e h => rfl)
  have hscan := scanGo_recsBytes recs (db.file.length + 1) 12 [] [] [] hwf
    (by have := recsBytes_len_ge recs; omega)
  have hmagic : deBE ((be32 signature ++ be64 db.counter ++ recsBytes recs).take 4)
      = signature := by
    rw [header_take4, deBE_be32]
    decide
  have hcounter : deBE (((be32 signature ++ be64 db.counter
      ++ recsBytes recs).drop 4).take 8) = db.counter := by
    rw [header_counter, deBE_be64]
    exact Nat.mod_eq_of_lt hctr
  rw [hfile] at hscan hlen12 ⊢
  rw [openDB]
  rw [if_neg (by omega), if_neg (by omega)]
  rw [if_neg (by rw [hmagic]; exact fun h => h rfl)]
  rw [header_drop12, hcounter]
  rw [hscan]
  rw [hA.2, List.nil_append]

/-- C2's consumer form: reopening recovers a store whose get agrees with the
pre-close store on every key. -/
theorem openDB_recovers (path : String) (db : DB) (recs : List Rec) (hinv : Inv db recs) :
    ∃ db2, openDB path db.file = .ok db2 ∧ ∀ k, db2.get k = db.get k := by
  refine ⟨_, openDB_inv path db recs hinv, ?_⟩
  intro k
  have hA := scanAbs_spec recs 12 [] [] [] hinv.hnodup (fun k2 e h => rfl)
  have h1 : lookupA (scanAbs recs 12 ([], [], [])).1 k = lookupA db.indexes k := by
    rw [hA.1 k, hinv.hidx k]
    cases h : lookupA (liveAssocFrom 12 recs) k with
    | some e => rfl
    | none => rfl
  rw [DB.get, DB.get, h1]

/-! ### Decomposing a record list at a live or dead record -/

theorem lookupA_liveAssocFrom_some {pos : Nat} {recs : List Rec} {k : Key} {e : Index}
    (h : lookupA (liveAssocFrom pos recs) k = some e) :
    ∃ rs1 r rs2, recs = rs1 ++ r :: rs2 ∧ r.rdel = false ∧ r.rkey = k ∧
      e = recEntry (pos + (recsBytes rs1).length) r := by
  induction recs generalizing pos with
  | nil => simp [liveAssocFrom, lookupA] at h
  | cons r rs ih =>
    by_cases hdel : r.rdel
    · rw [liveAssocFrom, if_pos hdel] at h
      obtain ⟨rs1, r2, rs2, hsplit, h2, h3, h4⟩ := ih h
      refine ⟨r :: rs1, r2, rs2, by rw [hsplit]; rfl, h2, h3, ?_⟩
      rw [h4]
      congr 1
      simp only [recsBytes, List.length_append, length_encodeRec]
      omega
    · rw [liveAssocFrom, if_neg hdel] at h
      simp only [lookupA] at h
      split at h
      · rename_i hkey
        obtain rfl : recEntry pos r = e := by injection h
        refine ⟨[], r, rs, rfl, Bool.eq_false_iff.mpr hdel, hkey, ?_⟩
        simp [recsBytes]
      · obtain ⟨rs1, r2, rs2, hsplit, h2, h3, h4⟩ := ih h
        refine ⟨r :: rs1, r2, rs2, by rw [hsplit]; rfl, h2, h3, ?_⟩
        rw [h4]
        congr 1
        simp only [recsBytes, List.length_append, length_encodeRec]
        omega

theorem mem_deadFrom {pos : Nat} {recs : List Rec} {e : Index}
    (h : e ∈ deadFrom pos recs) :
    ∃ rs1 r rs2, recs = rs1 ++ r :: rs2 ∧ r.rdel = true ∧
      e = recEntry (pos + (recsBytes rs1).length) r := by
  induction recs generalizing pos with
  | nil => simp [deadFrom] at h
  | cons r rs ih =>
    by_cases hdel : r.rdel
    · rw [deadFrom, if_pos hdel] at h
      rcases List.mem_cons.mp h with h1 | h1
      · refine ⟨[], r, rs, rfl, hdel, ?_⟩
        rw [h1]
        simp [recsBytes]
      · obtain ⟨rs1, r2, rs2, hsplit, h2, h4⟩ := ih h1
        refine ⟨r :: rs1, r2, rs2, by rw [hsplit]; rfl, h2, ?_⟩
        rw [h4]
        congr 1
        simp only [recsBytes, List.length_append, length_encodeRec]
        omega
    · rw [deadFrom, if_neg hdel] at h
      obtain ⟨rs1, r2, rs2, hsplit, h2, h4⟩ := ih h
      refine ⟨r :: rs1, r2, rs2, by rw [hsplit]; rfl, h2, ?_⟩
      rw [h4]
      congr 1
      simp only [recsBytes, List.length_append, length_encodeRec]
      omega

theorem recsBytes_pos {l : List Rec} (h : l ≠ []) : 0 < (recsBytes l).length := by
  cases l with
  | nil => exact absurd rfl h
  | cons r rs =>
    simp only [recsBytes, List.length_append, length_encodeRec]
    have : 14 ≤ footprint r := by
      rw [footprint]
      omega
    omega

theorem recsBytes_take_lt (recs : List Rec) (n m : Nat) (h : n < m) (hm : m ≤ recs.length) :
    (recsBytes (recs.take n)).length < (recsBytes (recs.take m)).length := by
  have hsplit : recs.take m = recs.take n ++ (recs.drop n).take (m - n) := by
    rw [← List.take_add]
    congr 1
    omega
  rw [hsplit, recsBytes_append, List.length_append]
  have hne : (recs.drop n).take (m - n) ≠ [] := by
    intro hnil
    have := congrArg List.length hnil
    simp only [List.length_take, List.length_drop, List.length_nil] at this
    omega
  have := recsBytes_pos hne
  omega

/-- Two decompositions of the same record list at records with the same byte
offset coincide. -/
theorem split_unique {recs a1 b1 : List Rec} {x y : Rec} {a2 b2 : List Rec}
    (ha : recs = a1 ++ x :: a2) (hb : recs = b1 ++ y :: b2)
    (hlen : (recsBytes a1).length = (recsBytes b1).length) :
    a1 = b1 ∧ x = y ∧ a2 = b2 := by
  have hta : recs.take a1.length = a1 := by
    rw [ha, List.take_left]
  have htb : recs.take b1.length = b1 := by
    rw [hb, List.take_left]
  have hla : a1.length < recs.length := by
    rw [ha]
    simp only [List.length_append, List.length_cons]
    omega
  have hlb : b1.length < recs.length := by
    rw [hb]
    simp only [List.length_append, List.length_cons]
    omega
  have hab : a1.length = b1.length := by
    by_contra hne
    rcases Nat.lt_or_ge a1.length b1.length with hlt | hge
    · have := recsBytes_take_lt recs a1.length b1.length hlt (by omega)
      rw [hta, htb] at this
      omega
    · have hlt : b1.length < a1.length := by omega
      have := recsBytes_take_lt recs b1.length a1.length hlt (by omega)
      rw [hta, htb] at this
      omega
  have h1 : a1 = b1 := by
    rw [← hta, ← htb, hab]
  refine ⟨h1, ?_, ?_⟩
  · have h2 : x :: a2 = y :: b2 := by
      apply @List.append_cancel_left _ a1 _ _
      rw [← ha, h1, ← hb]
    injection h2 with h3 h4
  · have h2 : x :: a2 = y :: b2 := by
      apply @List.append_cancel_left _ a1 _ _
      rw [← ha, h1, ← hb]
    injection h2 with h3 h4

/-! ### Inserting a freed slot into the sorted free list -/

theorem freeLt_trans {a b c : Index} (h1 : FreeLt a b) (h2 : FreeLt b c) : FreeLt a c := by
  rw [FreeLt] at *
  omega

/-- What db.delete does to the free list: with a sorted free list whose offsets
all differ from the freed entry's, the duplicate-offset guard does not fire,
and inserting at the sort.Search position keeps the list sorted and adds
exactly the entry. -/
theorem insertFree_spec (del : List Index) (e : Index)
    (hsorted : del.Pairwise FreeLt)
    (hoff : ∀ d ∈ del, d.Offset ≠ e.Offset) :
    (¬ (freePos del e < del.length
        ∧ (del.getD (freePos del e) default).Offset = e.Offset)) ∧
    (del.take (freePos del e) ++ e :: del.drop (freePos del e)).Pairwise FreeLt ∧
    (del.take (freePos del e) ++ e :: del.drop (freePos del e)).Perm (e :: del) := by
  have hmono : ∀ i j, i ≤ j → j < del.length →
      (fun i => (let d := del.getD i default
        decide (e.Size < d.Size ∨ (d.Size = e.Size ∧ e.Offset < d.Offset)))) i = true →
      (fun i => (let d := del.getD i default
        decide (e.Size < d.Size ∨ (d.Size = e.Size ∧ e.Offset < d.Offset)))) j = true := by
    intro i j hij hj hi
    simp only [decide_eq_true_eq] at hi ⊢
    rcases Nat.eq_or_lt_of_le hij with rfl | hlt
    · exact hi
    · have hilen : i < del.length := lt_trans hlt hj
      rw [List.getD_eq_getElem del default hj]
      rw [List.getD_eq_getElem del default hilen] at hi
      have hp := (List.pairwise_iff_getElem.mp hsorted) i j hilen hj hlt
      rw [FreeLt] at hp
      omega
  have hspec := sortSearch_spec del.length _ hmono
  have hfpos : freePos del e = sortSearch del.length
      (fun i => (let d := del.getD i default
        decide (e.Size < d.Size ∨ (d.Size = e.Size ∧ e.Offset < d.Offset)))) := rfl
  refine ⟨?_, ?_, ?_⟩
  · rintro ⟨hlt, hoffeq⟩
    exact hoff _ (getD_mem hlt) hoffeq
  · have hfle : freePos del e ≤ del.length := by
      rw [hfpos]
      exact sortSearch_le _ _
    have htake : ∀ a ∈ del.take (freePos del e), FreeLt a e := by
      intro a ha
      obtain ⟨i, hi, hie⟩ := List.mem_take_iff_getElem.mp ha
      have hilen : i < del.length := by
        simp only [lt_min_iff] at hi
        exact hi.2
      have hifound : i < freePos del e := by
        simp only [lt_min_iff] at hi
        exact hi.1
      have hfalse := hspec.1 i (by rw [hfpos] at hifound; exact hifound)
      have hne : ¬ (e.Size < (del.getD i default).Size
          ∨ ((del.getD i default).Size = e.Size
            ∧ e.Offset < (del.getD i default).Offset)) := of_decide_eq_false hfalse
      rw [List.getD_eq_getElem del default hilen, hie] at hne
      have hoffne : a.Offset ≠ e.Offset := hoff a (List.mem_of_mem_take ha)
      rw [FreeLt]
      omega
    have hsorted2 := hsorted
    rw [← List.take_append_drop (freePos del e) del] at hsorted2
    obtain ⟨hp1, hp2, hcross⟩ := List.pairwise_append.mp hsorted2
    have hdropgt : ∀ b ∈ del.drop (freePos del e), FreeLt e b := by
      intro b hb
      rcases Nat.eq_or_lt_of_le hfle with heq | hlt2
      · rw [List.drop_eq_nil_of_le (le_of_eq heq.symm)] at hb
        simp at hb
      · have hfound_true := hspec.2 (by rw [hfpos] at hlt2; exact hlt2)
        have hgtp : e.Size < (del.getD (sortSearch del.length _) default).Size
            ∨ ((del.getD (sortSearch del.length _) default).Size = e.Size
              ∧ e.Offset < (del.getD (sortSearch del.length _) default).Offset) :=
          of_decide_eq_true hfound_true
        rw [← hfpos] at hgtp
        have hgt : FreeLt e (del.getD (freePos del e) default) := by
          rw [FreeLt]
          omega
        rw [List.getD_eq_getElem del default hlt2] at hgt
        rw [List.drop_eq_getElem_cons hlt2] at hb hp2
        rcases List.mem_cons.mp hb with hb1 | hb1
        · rw [hb1]
          exact hgt
        · have hhead := (List.pairwise_cons.mp hp2).1 b hb1
          exact freeLt_trans hgt hhead
    refine List.pairwise_append.mpr ⟨hp1, List.pairwise_cons.mpr ⟨hdropgt, hp2⟩, ?_⟩
    · intro a ha b hb
      rcases List.mem_cons.mp hb with hb1 | hb1
      · rw [hb1]
        exact htake a ha
      · exact hcross a ha b hb1
  · have hmid := @List.perm_middle _ e (del.take (freePos del e)) (del.drop (freePos del e))
    refine hmid.trans ?_
    rw [List.take_append_drop]

@[simp] theorem recEntry_Offset (pos : Nat) (r : Rec) :
    (recEntry pos r).Offset = pos % 4294967296 := rfl

@[simp] theorem recEntry_KeySize (pos : Nat) (r : Rec) :
    (recEntry pos r).KeySize = r.rkey.length % 256 := rfl

@[simp] theorem recEntry_DataSize (pos : Nat) (r : Rec) :
    (recEntry pos r).DataSize = r.rdata.length % 4294967296 := rfl

@[simp] theorem recEntry_EmptySize (pos : Nat) (r : Rec) :
    (recEntry pos r).EmptySize = r.rpad.length % 4294967296 := rfl

theorem recEntry_size {r : Rec} (pos : Nat) (h : RecWF r) :
    (recEntry pos r).Size = r.rkey.length + r.rdata.length + r.rpad.length := by
  obtain ⟨h1, h2, h3, h4⟩ := h
  rw [Index.Size, recEntry]
  simp only
  omega

/-- The file of a store with ghost records split at one record. -/
theorem file_split (db : DB) (recs rs1 rs2 : List Rec) (r : Rec)
    (hfile : db.file = be32 signature ++ be64 db.counter ++ recsBytes recs)
    (hsplit : recs = rs1 ++ r :: rs2) :
    db.file = (be32 signature ++ be64 db.counter ++ recsBytes rs1)
      ++ encodeRec r ++ recsBytes rs2 := by
  rw [hfile, hsplit, recsBytes_append, recsBytes]
  simp [List.append_assoc]

theorem pre_length (ctr : Nat) (l : List Nat) :
    (be32 signature ++ be64 ctr ++ l).length = 12 + l.length := by
  simp
  omega

/-- Positions of records named by a split are bounded by the file length. -/
theorem split_pos_bound (db : DB) (recs rs1 rs2 : List Rec) (r : Rec)
    (hfile : db.file = be32 signature ++ be64 db.counter ++ recsBytes recs)
    (hsplit : recs = rs1 ++ r :: rs2) :
    12 + (recsBytes rs1).length + footprint r + (recsBytes rs2).length
      = db.file.length := by
  rw [file_split db recs rs1 rs2 r hfile hsplit]
  simp only [List.length_append, length_encodeRec, length_be32, length_be64]

theorem footprint_tombstone (r : Rec) (t : Nat) :
    footprint { r with rtime := t % 4294967296, rdel := true } = footprint r := rfl

theorem recEntry_tombstone (pos : Nat) (r : Rec) (t : Nat) :
    recEntry pos { r with rtime := t % 4294967296, rdel := true } = recEntry pos r := rfl

/-- The tombstone step of delete (the key is present): the state keeps the
invariant with the record marked deleted, the key's binding is removed and
nothing else changes (file length and counter are preserved). -/
theorem inv_delete_some (db : DB) (recs : List Rec) (key : Key) (t : Nat) (e : Index)
    (hinv : Inv db recs) (hlook : lookupA db.indexes key = some e) :
    ∃ recs2, Inv (db.delete key t).1 recs2 ∧
      (∀ k2, lookupA (db.delete key t).1.indexes k2
          = if k2 = key then none else lookupA db.indexes k2) ∧
      (db.delete key t).1.file.length = db.file.length ∧
      (db.delete key t).1.counter = db.counter := by
  obtain ⟨hfile, hlen, hctr, hwf, hnodup, hidx, hperm, hsorted⟩ := hinv
  have hlook2 : lookupA (liveAssocFrom 12 recs) key = some e := by
    rw [← hidx]
    exact hlook
  obtain ⟨rs1, r, rs2, hsplit, hrdel, hrkey, hre⟩ := lookupA_liveAssocFrom_some hlook2
  have hwfr : RecWF r :=
    hwf r (by rw [hsplit]; exact List.mem_append_right _ (List.mem_cons_self _ _))
  have hbound := split_pos_bound db recs rs1 rs2 r hfile hsplit
  have hpos32 : 12 + (recsBytes rs1).length < 4294967296 := by
    omega
  have heOff : e.Offset = 12 + (recsBytes rs1).length := by
    rw [hre, recEntry_Offset]
    omega
  have hoffne : ∀ d ∈ db.deleted, d.Offset ≠ e.Offset := by
    intro d hd hdeq
    have hd2 : d ∈ deadFrom 12 recs := hperm.mem_iff.mp hd
    obtain ⟨qs1, q, qs2, hqsplit, hqdel, hdq⟩ := mem_deadFrom hd2
    have hqbound := split_pos_bound db recs qs1 qs2 q hfile hqsplit
    have hdOff : d.Offset = 12 + (recsBytes qs1).length := by
      rw [hdq, recEntry_Offset]
      omega
    have hqlen : (recsBytes qs1).length = (recsBytes rs1).length := by
      rw [hdOff, heOff] at hdeq
      omega
    obtain ⟨hq1, hq2, hq3⟩ := split_unique hqsplit hsplit hqlen
    rw [hq2] at hqdel
    rw [hrdel] at hqdel
    exact Bool.false_ne_true hqdel
  have hguard := insertFree_spec db.deleted e hsorted hoffne
  have hdelete : (db.delete key t).1
      = ⟨writeAt db.file e.Offset ((be32 t ++ [1]).take 5), eraseKey key db.indexes,
         db.deleted.take (freePos db.deleted e) ++ e :: db.deleted.drop (freePos db.deleted e),
         db.counter⟩ := by
    rw [DB.delete]
    simp only [DB.deleteCore, hlook]
    rw [if_neg (by omega), if_neg hguard.1]
  have hble : ((be32 t ++ [1] : List Nat)).length ≤ (encodeRec r).length := by
    rw [length_encodeRec]
    simp only [footprint, List.length_append, length_be32, List.length_cons, List.length_nil]
    omega
  have hfile2 : writeAt db.file e.Offset ((be32 t ++ [1]).take 5)
      = be32 signature ++ be64 db.counter
        ++ recsBytes (rs1 ++ { r with rtime := t % 4294967296, rdel := true } :: rs2) := by
    rw [patch_take5]
    rw [file_split db recs rs1 rs2 r hfile hsplit, heOff]
    rw [← pre_length db.counter (recsBytes rs1)]
    rw [writeAt_mid _ _ _ _ hble]
    rw [show ((be32 t ++ [1] : List Nat)).length = 5 from rfl]
    rw [← encodeRec_tombstone]
    rw [recsBytes_append, recsBytes]
    simp [List.append_assoc]
  have hlen2 : (writeAt db.file e.Offset ((be32 t ++ [1]).take 5)).length = db.file.length := by
    rw [patch_take5, length_writeAt, heOff]
    have h5 : ((be32 t ++ [1] : List Nat)).length = 5 := rfl
    rw [h5]
    have hfp : 14 ≤ footprint r := by
      simp only [footprint]
      omega
    omega
  have horig : liveAssocFrom 12 recs
      = liveAssocFrom 12 rs1
        ++ (key, e) :: liveAssocFrom (12 + (recsBytes rs1).length + footprint r) rs2 := by
    rw [hsplit, liveAssocFrom_append, liveAssocFrom, if_neg (by simp [hrdel]), hrkey, ← hre]
  have hnew : liveAssocFrom 12 (rs1 ++ { r with rtime := t % 4294967296, rdel := true } :: rs2)
      = liveAssocFrom 12 rs1
        ++ liveAssocFrom (12 + (recsBytes rs1).length + footprint r) rs2 := by
    rw [liveAssocFrom_append, liveAssocFrom, if_pos rfl, footprint_tombstone]
  have hdeadorig : deadFrom 12 recs
      = deadFrom 12 rs1 ++ deadFrom (12 + (recsBytes rs1).length + footprint r) rs2 := by
    rw [hsplit, deadFrom_append, deadFrom, if_neg (by simp [hrdel])]
  have hdeadnew : deadFrom 12 (rs1 ++ { r with rtime := t % 4294967296, rdel := true } :: rs2)
      = deadFrom 12 rs1 ++ e :: deadFrom (12 + (recsBytes rs1).length + footprint r) rs2 := by
    rw [deadFrom_append, deadFrom, if_pos rfl, footprint_tombstone, recEntry_tombstone, ← hre]
  have hnd1 : ((liveAssocFrom 12 rs1).map Prod.fst
      ++ key :: (liveAssocFrom (12 + (recsBytes rs1).length + footprint r) rs2).map
          Prod.fst).Nodup := by
    have h0 := hnodup
    rw [liveKeys, horig, List.map_append, List.map_cons] at h0
    exact h0
  have hnd2 := List.nodup_middle.mp hnd1
  have hkey_notin := (List.nodup_cons.mp hnd2).1
  have hnd3 := (List.nodup_cons.mp hnd2).2
  have hL1none : lookupA (liveAssocFrom 12 rs1) key = none :=
    (lookupA_eq_none_iff _ _).mpr (fun hm => hkey_notin (List.mem_append_left _ hm))
  have hL2none :
      lookupA (liveAssocFrom (12 + (recsBytes rs1).length + footprint r) rs2) key = none :=
    (lookupA_eq_none_iff _ _).mpr (fun hm => hkey_notin (List.mem_append_right _ hm))
  rw [hdelete]
  refine ⟨rs1 ++ { r with rtime := t % 4294967296, rdel := true } :: rs2,
    ⟨hfile2, ?_, hctr, ?_, ?_, ?_, ?_, hguard.2.1⟩, ?_, hlen2, rfl⟩
  · show (writeAt db.file e.Offset ((be32 t ++ [1]).take 5)).length < 4294967296
    rw [hlen2]
    exact hlen
  · intro r3 hr3
    rcases List.mem_append.mp hr3 with h1 | h1
    · refine hwf r3 ?_
      rw [hsplit]
      exact List.mem_append_left _ h1
    · rcases List.mem_cons.mp h1 with h2 | h2
      · rw [h2]
        obtain ⟨w1, w2, w3, w4⟩ := hwfr
        refine ⟨w1, w2, w3, ?_⟩
        show t % 4294967296 < 4294967296
        omega
      · refine hwf r3 ?_
        rw [hsplit]
        exact List.mem_append_right _ (List.mem_cons_of_mem _ h2)
  · show (liveKeys (rs1 ++ { r with rtime := t % 4294967296, rdel := true } :: rs2)).Nodup
    rw [liveKeys, hnew, List.map_append]
    exact hnd3
  · intro k
    show lookupA (eraseKey key db.indexes) k
        = lookupA (liveAssocFrom 12
            (rs1 ++ { r with rtime := t % 4294967296, rdel := true } :: rs2)) k
    by_cases hk : k = key
    · subst hk
      rw [lookupA_eraseKey_self, hnew, lookupA_append, hL1none]
      exact hL2none.symm
    · rw [lookupA_eraseKey_ne _ hk, hidx k, horig, hnew, lookupA_append, lookupA_append]
      cases hL1 : lookupA (liveAssocFrom 12 rs1) k with
      | some v => rfl
      | none =>
        show lookupA ((key, e) :: _) k = _
        rw [lookupA, if_neg (fun h => hk h.symm)]
  · show (db.deleted.take (freePos db.deleted e)
        ++ e :: db.deleted.drop (freePos db.deleted e)).Perm
      (deadFrom 12 (rs1 ++ { r with rtime := t % 4294967296, rdel := true } :: rs2))
    rw [hdeadnew]
    refine hguard.2.2.trans ((hperm.cons e).trans ?_)
    rw [hdeadorig]
    exact List.perm_middle.symm
  · intro k2
    show lookupA (eraseKey key db.indexes) k2 = _
    by_cases hk : k2 = key
    · rw [if_pos hk, hk]
      exact lookupA_eraseKey_self _ _
    · rw [if_neg hk]
      exact lookupA_eraseKey_ne _ hk

theorem put_eq_putFrom (db : DB) (key value : List Nat) (t1 t2 : Nat) :
    db.put key value t1 t2 = putFrom (db.delete key t1).1 key value t2 := rfl

/-- The internal delete step (of put, or a user delete) preserves the
invariant; afterwards the key is absent, and file length and counter are
unchanged. -/
theorem inv_del (db : DB) (recs : List Rec) (key : Key) (t : Nat) (hinv : Inv db recs) :
    ∃ recs2, Inv (db.delete key t).1 recs2 ∧
      lookupA (db.delete key t).1.indexes key = none ∧
      (db.delete key t).1.file.length = db.file.length ∧
      (db.delete key t).1.counter = db.counter := by
  cases hlook : lookupA db.indexes key with
  | none =>
    have hid : (db.delete key t).1 = db := by
      rw [DB.delete]
      simp only [DB.deleteCore, hlook]
    rw [hid]
    exact ⟨recs, hinv, hlook, rfl, rfl⟩
  | some e =>
    obtain ⟨recs2, hinv2, hlk, hlen, hctr⟩ := inv_delete_some db recs key t e hinv hlook
    refine ⟨recs2, hinv2, ?_, hlen, hctr⟩
    rw [hlk key, if_pos rfl]

/-- The best-fit-and-write half of put preserves the invariant, given that the
key is absent from the post-delete index db1. -/
theorem inv_putFrom (db1 : DB) (recs1 : List Rec) (key value : List Nat) (t2 : Nat)
    (hinv1 : Inv db1 recs1)
    (hkeynone : lookupA db1.indexes key = none)
    (hk1 : 1 ≤ key.length) (hk2 : key.length ≤ 255)
    (hkv : key.length + value.length < 4294967296)
    (hpost : (putFrom db1 key value t2).file.length < 4294967296) :
    ∃ recs2, Inv (putFrom db1 key value t2) recs2 := by
  obtain ⟨hfile1, hlen1, hctr1, hwf1, hnodup1, hidx1, hperm1, hsorted1⟩ := hinv1
  have hneed : (key.length + value.length) % 4294967296 = key.length + value.length :=
    Nat.mod_eq_of_lt hkv
  have hkeynotlive : lookupA (liveAssocFrom 12 recs1) key = none := by
    rw [← hidx1 key]
    exact hkeynone
  have hkeynotmem : key ∉ (liveAssocFrom 12 recs1).map Prod.fst :=
    (lookupA_eq_none_iff _ _).mp hkeynotlive
  by_cases hfd : fitFound db1.deleted (key.length + value.length) < db1.deleted.length
  · -- a free slot fits: the record is rewritten in place
    have hput : putFrom db1 key value t2
        = ⟨writeAt db1.file
            (db1.deleted.getD (fitFound db1.deleted (key.length + value.length))
              default).Offset
            (be32 t2 ++ [0, key.length % 256] ++ be32 (value.length % 4294967296)
              ++ be32 (((db1.deleted.getD (fitFound db1.deleted (key.length + value.length))
                  default).Size + 4294967296 - (key.length + value.length)) % 4294967296)
              ++ key ++ value),
           insertA db1.indexes key
             ⟨(db1.deleted.getD (fitFound db1.deleted (key.length + value.length))
                 default).Offset % 4294967296,
              key.length % 256, value.length % 4294967296,
              ((db1.deleted.getD (fitFound db1.deleted (key.length + value.length))
                  default).Size + 4294967296 - (key.length + value.length)) % 4294967296⟩,
           db1.deleted.take (fitFound db1.deleted (key.length + value.length))
             ++ db1.deleted.drop (fitFound db1.deleted (key.length + value.length) + 1),
           db1.counter⟩ := by
      simp only [putFrom]
      rw [hneed]
      rw [if_pos hfd, if_pos hfd, if_pos hfd]
    have hslotmem : db1.deleted.getD (fitFound db1.deleted (key.length + value.length)) default
        ∈ db1.deleted := getD_mem hfd
    have hslotdead : db1.deleted.getD (fitFound db1.deleted (key.length + value.length)) default
        ∈ deadFrom 12 recs1 := hperm1.mem_iff.mp hslotmem
    obtain ⟨qs1, q, qs2, hqsplit, hqdel, hslot⟩ := mem_deadFrom hslotdead
    obtain ⟨w1, w2, w3, w4⟩ := hwf1 q (by
      rw [hqsplit]
      exact List.mem_append_right _ (List.mem_cons_self _ _))
    have hqbound := split_pos_bound db1 recs1 qs1 qs2 q hfile1 hqsplit
    have hfpq : footprint q = 14 + q.rkey.length + q.rdata.length + q.rpad.length := rfl
    have hq32 : 12 + (recsBytes qs1).length < 4294967296 := by omega
    have hOff : (db1.deleted.getD (fitFound db1.deleted (key.length + value.length))
        default).Offset = 12 + (recsBytes qs1).length := by
      rw [hslot, recEntry_Offset]
      omega
    have hSize : (db1.deleted.getD (fitFound db1.deleted (key.length + value.length))
        default).Size = q.rkey.length + q.rdata.length + q.rpad.length := by
      rw [hslot, recEntry_size _ ⟨w1, w2, w3, w4⟩]
    have hfit : key.length + value.length
        ≤ (db1.deleted.getD (fitFound db1.deleted (key.length + value.length)) default).Size :=
      fitFound_fits hfd
    have hfit2 : key.length + value.length
        ≤ q.rkey.length + q.rdata.length + q.rpad.length := by
      rw [← hSize]
      exact hfit
    have hpadlen : ((q.rkey ++ q.rdata ++ q.rpad).drop (key.length + value.length)).length
        = q.rkey.length + q.rdata.length + q.rpad.length - (key.length + value.length) := by
      simp only [List.length_drop, List.length_append]
    have hempty : ((db1.deleted.getD (fitFound db1.deleted (key.length + value.length))
          default).Size + 4294967296 - (key.length + value.length)) % 4294967296
        = ((q.rkey ++ q.rdata ++ q.rpad).drop (key.length + value.length)).length := by
      rw [hSize, hpadlen]
      omega
    have hr2wf : RecWF ⟨t2 % 4294967296, false, key, value,
        (q.rkey ++ q.rdata ++ q.rpad).drop (key.length + value.length)⟩ := by
      refine ⟨hk1, hk2, ?_, ?_⟩
      · show key.length + value.length
            + ((q.rkey ++ q.rdata ++ q.rpad).drop (key.length + value.length)).length
          < 4294967296
        rw [hpadlen]
        omega
      · show t2 % 4294967296 < 4294967296
        omega
    have hfp2 : footprint ⟨t2 % 4294967296, false, key, value,
        (q.rkey ++ q.rdata ++ q.rpad).drop (key.length + value.length)⟩ = footprint q := by
      simp only [footprint, hpadlen]
      omega
    have hfile2 : writeAt db1.file
        (db1.deleted.getD (fitFound db1.deleted (key.length + value.length)) default).Offset
        (be32 t2 ++ [0, key.length % 256] ++ be32 (value.length % 4294967296)
          ++ be32 (((db1.deleted.getD (fitFound db1.deleted (key.length + value.length))
              default).Size + 4294967296 - (key.length + value.length)) % 4294967296)
          ++ key ++ value)
        = be32 signature ++ be64 db1.counter
          ++ recsBytes (qs1 ++ ⟨t2 % 4294967296, false, key, value,
              (q.rkey ++ q.rdata ++ q.rpad).drop (key.length + value.length)⟩ :: qs2) := by
      rw [hempty, hOff]
      rw [file_split db1 recs1 qs1 qs2 q hfile1 hqsplit]
      rw [← pre_length db1.counter (recsBytes qs1)]
      rw [writeAt_mid _ _ _ _ (by
        rw [buf_total_length, length_encodeRec, hfpq]
        omega)]
      rw [buf_total_length]
      have h14 : 14 + key.length + value.length = 14 + (key.length + value.length) := by omega
      rw [h14, encodeRec_drop_14_add]
      rw [← encodeRec_reuse]
      rw [recsBytes_append, recsBytes]
      simp [List.append_assoc]
    have hliveorig : liveAssocFrom 12 recs1
        = liveAssocFrom 12 qs1
          ++ liveAssocFrom (12 + (recsBytes qs1).length + footprint q) qs2 := by
      rw [hqsplit, liveAssocFrom_append, liveAssocFrom, if_pos hqdel]
    have hlivenew : liveAssocFrom 12 (qs1 ++ ⟨t2 % 4294967296, false, key, value,
          (q.rkey ++ q.rdata ++ q.rpad).drop (key.length + value.length)⟩ :: qs2)
        = liveAssocFrom 12 qs1
          ++ (key, recEntry (12 + (recsBytes qs1).length)
                ⟨t2 % 4294967296, false, key, value,
                  (q.rkey ++ q.rdata ++ q.rpad).drop (key.length + value.length)⟩)
            :: liveAssocFrom (12 + (recsBytes qs1).length + footprint q) qs2 := by
      rw [liveAssocFrom_append, liveAssocFrom, if_neg (by simp), hfp2]
    have hL1none : lookupA (liveAssocFrom 12 qs1) key = none := by
      refine (lookupA_eq_none_iff _ _).mpr ?_
      intro hm
      refine hkeynotmem ?_
      rw [hliveorig, List.map_append]
      exact List.mem_append_left _ hm
    have hidxeq : (⟨(db1.deleted.getD (fitFound db1.deleted (key.length + value.length))
            default).Offset % 4294967296,
          key.length % 256, value.length % 4294967296,
          ((db1.deleted.getD (fitFound db1.deleted (key.length + value.length))
              default).Size + 4294967296 - (key.length + value.length)) % 4294967296⟩ : Index)
        = recEntry (12 + (recsBytes qs1).length)
            ⟨t2 % 4294967296, false, key, value,
              (q.rkey ++ q.rdata ++ q.rpad).drop (key.length + value.length)⟩ := by
      show _ = (⟨(12 + (recsBytes qs1).length) % 4294967296, key.length % 256,
          value.length % 4294967296,
          ((q.rkey ++ q.rdata ++ q.rpad).drop (key.length + value.length)).length
            % 4294967296⟩ : Index)
      have hp32 : ((q.rkey ++ q.rdata ++ q.rpad).drop (key.length + value.length)).length
          % 4294967296
          = ((q.rkey ++ q.rdata ++ q.rpad).drop (key.length + value.length)).length := by
        rw [hpadlen]
        omega
      rw [hOff, hempty, hp32]
    have hwf2 : ∀ r3 ∈ qs1 ++ ⟨t2 % 4294967296, false, key, value,
        (q.rkey ++ q.rdata ++ q.rpad).drop (key.length + value.length)⟩ :: qs2, RecWF r3 := by
      intro r3 hr3
      rcases List.mem_append.mp hr3 with h1 | h1
      · refine hwf1 r3 ?_
        rw [hqsplit]
        exact List.mem_append_left _ h1
      · rcases List.mem_cons.mp h1 with h2 | h2
        · rw [h2]
          exact hr2wf
        · refine hwf1 r3 ?_
          rw [hqsplit]
          exact List.mem_append_right _ (List.mem_cons_of_mem _ h2)
    have hnodup2 : (liveKeys (qs1 ++ ⟨t2 % 4294967296, false, key, value,
        (q.rkey ++ q.rdata ++ q.rpad).drop (key.length + value.length)⟩ :: qs2)).Nodup := by
      rw [liveKeys, hlivenew, List.map_append, List.map_cons]
      refine List.nodup_middle.mpr (List.nodup_cons.mpr ⟨?_, ?_⟩)
      · intro hm
        refine hkeynotmem ?_
        rw [hliveorig, List.map_append]
        exact hm
      · have h0 := hnodup1
        rw [liveKeys, hliveorig, List.map_append] at h0
        exact h0
    have hidx2 : ∀ k, lookupA (insertA db1.indexes key
          ⟨(db1.deleted.getD (fitFound db1.deleted (key.length + value.length))
              default).Offset % 4294967296,
           key.length % 256, value.length % 4294967296,
           ((db1.deleted.getD (fitFound db1.deleted (key.length + value.length))
               default).Size + 4294967296 - (key.length + value.length)) % 4294967296⟩) k
        = lookupA (liveAssocFrom 12 (qs1 ++ ⟨t2 % 4294967296, false, key, value,
            (q.rkey ++ q.rdata ++ q.rpad).drop (key.length + value.length)⟩ :: qs2)) k := by
      intro k
      by_cases hk : k = key
      · subst hk
        rw [lookupA_insertA_self, hlivenew, lookupA_append, hL1none]
        show _ = lookupA ((k, recEntry (12 + (recsBytes qs1).length)
            ⟨t2 % 4294967296, false, k, value,
              (q.rkey ++ q.rdata ++ q.rpad).drop (k.length + value.length)⟩)
          :: liveAssocFrom (12 + (recsBytes qs1).length + footprint q) qs2) k
        rw [lookupA, if_pos rfl, hidxeq]
      · rw [lookupA_insertA_ne _ _ hk, hidx1 k, hliveorig, hlivenew, lookupA_append,
          lookupA_append]
        cases hL1 : lookupA (liveAssocFrom 12 qs1) k with
        | some v => rfl
        | none =>
          show lookupA (liveAssocFrom (12 + (recsBytes qs1).length + footprint q) qs2) k
            = lookupA ((key, recEntry (12 + (recsBytes qs1).length)
                ⟨t2 % 4294967296, false, key, value,
                  (q.rkey ++ q.rdata ++ q.rpad).drop (key.length + value.length)⟩)
              :: liveAssocFrom (12 + (recsBytes qs1).length + footprint q) qs2) k
          rw [lookupA, if_neg (fun h => hk h.symm)]
    have hdel_eq : db1.deleted
        = db1.deleted.take (fitFound db1.deleted (key.length + value.length))
          ++ db1.deleted.getD (fitFound db1.deleted (key.length + value.length)) default
            :: db1.deleted.drop (fitFound db1.deleted (key.length + value.length) + 1) := by
      conv_lhs => rw [← List.take_append_drop
        (fitFound db1.deleted (key.length + value.length)) db1.deleted]
      rw [List.drop_eq_getElem_cons hfd, List.getD_eq_getElem db1.deleted default hfd]
    have hdeadorig : deadFrom 12 recs1
        = deadFrom 12 qs1
          ++ recEntry (12 + (recsBytes qs1).length) q
            :: deadFrom (12 + (recsBytes qs1).length + footprint q) qs2 := by
      rw [hqsplit, deadFrom_append, deadFrom, if_pos hqdel]
    have hdeadnew : deadFrom 12 (qs1 ++ ⟨t2 % 4294967296, false, key, value,
          (q.rkey ++ q.rdata ++ q.rpad).drop (key.length + value.length)⟩ :: qs2)
        = deadFrom 12 qs1 ++ deadFrom (12 + (recsBytes qs1).length + footprint q) qs2 := by
      rw [deadFrom_append, deadFrom, if_neg (by simp), hfp2]
    have hperm2 : (db1.deleted.take (fitFound db1.deleted (key.length + value.length))
          ++ db1.deleted.drop (fitFound db1.deleted (key.length + value.length) + 1)).Perm
        (deadFrom 12 (qs1 ++ ⟨t2 % 4294967296, false, key, value,
          (q.rkey ++ q.rdata ++ q.rpad).drop (key.length + value.length)⟩ :: qs2)) := by
      rw [hdeadnew]
      have hp0 : (db1.deleted.take (fitFound db1.deleted (key.length + value.length))
            ++ db1.deleted.getD (fitFound db1.deleted (key.length + value.length)) default
              :: db1.deleted.drop
                (fitFound db1.deleted (key.length + value.length) + 1)).Perm
          (deadFrom 12 qs1
            ++ db1.deleted.getD (fitFound db1.deleted (key.length + value.length)) default
              :: deadFrom (12 + (recsBytes qs1).length + footprint q) qs2) := by
        rw [← hdel_eq, hslot, ← hdeadorig]
        exact hperm1
      exact ((List.perm_middle.symm.trans hp0).trans List.perm_middle).cons_inv
    have hsorted2 : (db1.deleted.take (fitFound db1.deleted (key.length + value.length))
        ++ db1.deleted.drop
          (fitFound db1.deleted (key.length + value.length) + 1)).Pairwise FreeLt := by
      refine List.Pairwise.sublist ?_ hsorted1
      conv_rhs => rw [hdel_eq]
      exact List.Sublist.append_left (List.sublist_cons_self _ _) _
    have hpost2 := hpost
    rw [hput] at hpost2
    refine ⟨qs1 ++ ⟨t2 % 4294967296, false, key, value,
      (q.rkey ++ q.rdata ++ q.rpad).drop (key.length + value.length)⟩ :: qs2, ?_⟩
    rw [hput]
    exact ⟨hfile2, hpost2, hctr1, hwf2, hnodup2, hidx2, hperm2, hsorted2⟩
  · -- no slot fits: the record is appended at the end of the file
    have hput : putFrom db1 key value t2
        = ⟨writeAt db1.file db1.file.length
            (be32 t2 ++ [0, key.length % 256] ++ be32 (value.length % 4294967296)
              ++ be32 0 ++ key ++ value),
           insertA db1.indexes key
             ⟨db1.file.length % 4294967296, key.length % 256, value.length % 4294967296, 0⟩,
           db1.deleted, db1.counter⟩ := by
      simp only [putFrom]
      rw [hneed]
      rw [if_neg hfd, if_neg hfd, if_neg hfd]
    have hflen : db1.file.length = 12 + (recsBytes recs1).length := by
      rw [hfile1, pre_length]
    have hv32 : value.length % 4294967296 = value.length := Nat.mod_eq_of_lt (by omega)
    have henc : encodeRec ⟨t2 % 4294967296, false, key, value, []⟩
        = be32 t2 ++ [0, key.length % 256] ++ be32 (value.length % 4294967296)
          ++ be32 0 ++ key ++ value := by
      simp [encodeRec, be32_mod, hv32]
    have hlivenew : liveAssocFrom 12 (recs1 ++ [⟨t2 % 4294967296, false, key, value, []⟩])
        = liveAssocFrom 12 recs1
          ++ [(key, recEntry (12 + (recsBytes recs1).length)
              ⟨t2 % 4294967296, false, key, value, []⟩)] := by
      rw [liveAssocFrom_append, liveAssocFrom, if_neg (by simp), liveAssocFrom]
    have hdeadnew : deadFrom 12 (recs1 ++ [⟨t2 % 4294967296, false, key, value, []⟩])
        = deadFrom 12 recs1 := by
      rw [deadFrom_append, deadFrom, if_neg (by simp), deadFrom, List.append_nil]
    have hfile2 : writeAt db1.file db1.file.length
        (be32 t2 ++ [0, key.length % 256] ++ be32 (value.length % 4294967296)
          ++ be32 0 ++ key ++ value)
        = be32 signature ++ be64 db1.counter
          ++ recsBytes (recs1 ++ [⟨t2 % 4294967296, false, key, value, []⟩]) := by
      rw [writeAt_at_length, recsBytes_append, recsBytes, recsBytes, List.append_nil, henc,
        hfile1]
      simp [List.append_assoc]
    have hidxeq : (⟨db1.file.length % 4294967296, key.length % 256,
          value.length % 4294967296, 0⟩ : Index)
        = recEntry (12 + (recsBytes recs1).length)
            ⟨t2 % 4294967296, false, key, value, []⟩ := by
      show _ = (⟨(12 + (recsBytes recs1).length) % 4294967296, key.length % 256,
          value.length % 4294967296, 0⟩ : Index)
      rw [hflen]
    have hwf2 : ∀ r3 ∈ recs1 ++ [⟨t2 % 4294967296, false, key, value, []⟩], RecWF r3 := by
      intro r3 hr3
      rcases List.mem_append.mp hr3 with h1 | h1
      · exact hwf1 r3 h1
      · rcases List.mem_cons.mp h1 with h2 | h2
        · rw [h2]
          refine ⟨hk1, hk2, ?_, ?_⟩
          · show key.length + value.length + ([] : List Nat).length < 4294967296
            show key.length + value.length + 0 < 4294967296
            omega
          · show t2 % 4294967296 < 4294967296
            omega
        · exact absurd h2 (List.not_mem_nil r3)
    have hnodup2 : (liveKeys (recs1
        ++ [⟨t2 % 4294967296, false, key, value, []⟩])).Nodup := by
      rw [liveKeys, hlivenew, List.map_append, List.map_cons, List.map_nil]
      refine List.nodup_middle.mpr (List.nodup_cons.mpr ⟨?_, ?_⟩)
      · rw [List.append_nil]
        exact hkeynotmem
      · rw [List.append_nil]
        have h0 := hnodup1
        rw [liveKeys] at h0
        exact h0
    have hidx2 : ∀ k, lookupA (insertA db1.indexes key
          ⟨db1.file.length % 4294967296, key.length % 256, value.length % 4294967296, 0⟩) k
        = lookupA (liveAssocFrom 12
            (recs1 ++ [⟨t2 % 4294967296, false, key, value, []⟩])) k := by
      intro k
      by_cases hk : k = key
      · subst hk
        rw [lookupA_insertA_self, hlivenew, lookupA_append, hkeynotlive]
        show _ = lookupA [(k, recEntry (12 + (recsBytes recs1).length)
            ⟨t2 % 4294967296, false, k, value, []⟩)] k
        rw [lookupA, if_pos rfl, hidxeq]
      · rw [lookupA_insertA_ne _ _ hk, hidx1 k, hlivenew, lookupA_append]
        cases hL1 : lookupA (liveAssocFrom 12 recs1) k with
        | some v => rfl
        | none =>
          show (none : Option Index) = lookupA [(key, recEntry (12 + (recsBytes recs1).length)
              ⟨t2 % 4294967296, false, key, value, []⟩)] k
          rw [lookupA, if_neg (fun h => hk h.symm), lookupA]
    have hperm2 : db1.deleted.Perm (deadFrom 12
        (recs1 ++ [⟨t2 % 4294967296, false, key, value, []⟩])) := by
      rw [hdeadnew]
      exact hperm1
    have hpost2 := hpost
    rw [hput] at hpost2
    refine ⟨recs1 ++ [⟨t2 % 4294967296, false, key, value, []⟩], ?_⟩
    rw [hput]
    exact ⟨hfile2, hpost2, hctr1, hwf2, hnodup2, hidx2, hperm2, hsorted1⟩

/-- db.put preserves the invariant. -/
theorem inv_put (db : DB) (recs : List Rec) (key value : List Nat) (t1 t2 : Nat)
    (hinv : Inv db recs)
    (hk1 : 1 ≤ key.length) (hk2 : key.length ≤ 255)
    (hkv : key.length + value.length < 4294967296)
    (hpost : (db.put key value t1 t2).file.length < 4294967296) :
    ∃ recs2, Inv (db.put key value t1 t2) recs2 := by
  obtain ⟨recs1, hinv1, hkeynone, _, _⟩ := inv_del db recs key t1 hinv
  rw [put_eq_putFrom] at hpost ⊢
  exact inv_putFrom (db.delete key t1).1 recs1 key value t2 hinv1 hkeynone hk1 hk2 hkv hpost

theorem writeAt_length_ge (f : List Nat) (off : Nat) (b : List Nat) :
    f.length ≤ (writeAt f off b).length := by
  rw [length_writeAt]
  omega

/-- delete never shrinks the file. -/
theorem delete_file_length_ge (db : DB) (key : Key) (t : Nat) :
    db.file.length ≤ (db.delete key t).1.file.length := by
  rw [DB.delete, DB.deleteCore]
  cases hl : lookupA db.indexes key with
  | none => exact Nat.le_refl _
  | some idx =>
    simp only
    rw [if_neg (by omega)]
    split
    · exact writeAt_length_ge _ _ _
    · exact writeAt_length_ge _ _ _

/-- put never shrinks the file. -/
theorem put_file_length_ge (db : DB) (key value : List Nat) (t1 t2 : Nat) :
    db.file.length ≤ (db.put key value t1 t2).file.length :=
  Nat.le_trans (delete_file_length_ge db key t1) (writeAt_length_ge _ _ _)

theorem applyOp_file_length_ge (db : DB) (op : Op) :
    db.file.length ≤ (applyOp db op).file.length := by
  cases op with
  | put k v t1 t2 => exact put_file_length_ge db k v t1 t2
  | del k t => exact delete_file_length_ge db k t

theorem applyOps_file_length_ge (db : DB) (ops : List Op) :
    db.file.length ≤ (applyOps db ops).file.length := by
  induction ops generalizing db with
  | nil => exact Nat.le_refl _
  | cons op ops ih => exact Nat.le_trans (applyOp_file_length_ge db op) (ih (applyOp db op))

/-- The freshly initialised store satisfies the invariant with no records. -/
theorem inv_emptyDB : Inv emptyDB [] := by
  refine ⟨?_, ?_, ?_, ?_, ?_, ?_, ?_, ?_⟩
  · show be32 signature ++ be64 0 = be32 signature ++ be64 0 ++ recsBytes []
    rw [recsBytes, List.append_nil]
  · show (be32 signature ++ be64 0).length < 4294967296
    simp
  · show (0 : Nat) < 18446744073709551616
    omega
  · intro r hr
    exact absurd hr (List.not_mem_nil r)
  · show (liveKeys []).Nodup
    rw [liveKeys, liveAssocFrom]
    exact List.nodup_nil
  · intro k
    rfl
  · exact List.Perm.nil
  · exact List.Pairwise.nil

/-- Every valid operation sequence keeps the store in an invariant state, as
long as the final file stays below 4 GiB (the file only ever grows). -/
theorem inv_applyOps (ops : List Op) : ∀ (db : DB) (recs : List Rec), Inv db recs →
    (∀ op ∈ ops, ValidOp op) → (applyOps db ops).file.length < 4294967296 →
    ∃ recs2, Inv (applyOps db ops) recs2 := by
  induction ops with
  | nil =>
    intro db recs hinv _ _
    exact ⟨recs, hinv⟩
  | cons op ops ih =>
    intro db recs hinv hv hlen
    have hstep : ∃ recs1, Inv (applyOp db op) recs1 := by
      cases op with
      | put k v t1 t2 =>
        obtain ⟨h1, h2, h3⟩ := hv _ (List.mem_cons_self _ _)
        have hge := applyOps_file_length_ge (db.put k v t1 t2) ops
        have hlen2 : (applyOps (db.put k v t1 t2) ops).file.length < 4294967296 := hlen
        exact inv_put db recs k v t1 t2 hinv h1 h2 h3 (by omega)
      | del k t =>
        obtain ⟨recs1, hinv1, _, _, _⟩ := inv_del db recs k t hinv
        exact ⟨recs1, hinv1⟩
    obtain ⟨recs1, hinv1⟩ := hstep
    exact ih (applyOp db op) recs1 hinv1 (fun o ho => hv o (List.mem_cons_of_mem _ ho)) hlen

instance instDecValidOps (ops : List Op) : Decidable (ValidOps ops) :=
  inferInstanceAs (Decidable (∀ op ∈ ops, ValidOp op))

/-- C2.  Closed-form recovery: for every valid sequence of put and delete
operations applied to the initially empty store (each put uses a key of 1..255
bytes with key plus value below 2^32, and the final file stays below 2^32
bytes, the uint32 offset model), reopening the backing file succeeds and the
recovered store's get agrees with the in-memory store's get on every key. -/
theorem close_reopen_preserves_mapping (path : String) (ops : List Op)
    (hv : ValidOps ops)
    (hlen : (applyOps emptyDB ops).file.length < 4294967296) :
    ∃ db2, openDB path (applyOps emptyDB ops).file = .ok db2 ∧
      ∀ k, db2.get k = (applyOps emptyDB ops).get k := by
  obtain ⟨recs2, hinv2⟩ := inv_applyOps ops emptyDB [] inv_emptyDB hv hlen
  exact openDB_recovers path _ recs2 hinv2

/-- Witness for C2 at a concrete history: two puts, a delete and a re-put that
reuses the freed slot. -/
theorem close_reopen_preserves_mapping_witness :
    ∃ db2, openDB "test.db" (applyOps emptyDB
        [Op.put [65] [1, 2, 3] 100 101, Op.put [66, 67] [4] 102 103,
         Op.del [65] 104, Op.put [68] [5] 105 106]).file = .ok db2 ∧
      ∀ k, db2.get k = (applyOps emptyDB
        [Op.put [65] [1, 2, 3] 100 101, Op.put [66, 67] [4] 102 103,
         Op.del [65] 104, Op.put [68] [5] 105 106]).get k :=
  close_reopen_preserves_mapping "test.db" _ (by decide) (by decide)

end Keystore
